import Mathlib

/-!
Verification of the VimFlavor manifest parser and synchronizer
(repository rust-vim-flavor).

The parser in src/parse.rs is embedded shallowly: the Rust input
`&str` becomes a list of bytes (`List Nat`, each < 256 for real inputs),
the struct `Parser { buffer: Enumerate<Bytes>, offset, byte }` becomes a
Lean structure whose `buffer` is the enumerated remainder of the input,
and every method becomes a Lean function of the same name.  Rust
`String` values (token texts, repo names, branches) are byte lists.
`Result<T, ParseError>` becomes `Except ParseError T`; `&mut self`
methods return the updated parser.
-/

namespace VimFlavor

/-- Byte list of an ASCII Lean string; used to write concrete inputs. -/
def ascii (s : String) : List Nat := s.data.map Char.toNat

/-- Rust `u8::is_ascii_alphabetic`. -/
def isAsciiAlphabetic (b : Nat) : Bool :=
  decide ((65 ≤ b ∧ b ≤ 90) ∨ (97 ≤ b ∧ b ≤ 122))

/-- A UTF-8 continuation byte (10xxxxxx). -/
def isCont (b : Nat) : Bool := decide (128 ≤ b ∧ b ≤ 191)

/-- Lower bound of the first continuation byte after lead `b`
(restricted for E0, ED, F0 and F4 to exclude overlong encodings,
surrogates and code points above U+10FFFF). -/
def firstContLo (b : Nat) : Nat :=
  if b = 224 then 160 else if b = 240 then 144 else 128

/-- Upper bound of the first continuation byte after lead `b`. -/
def firstContHi (b : Nat) : Nat :=
  if b = 237 then 159 else if b = 244 then 143 else 191

/-- The first continuation byte `c` fits lead `b`. -/
def firstContOk (b c : Nat) : Bool :=
  decide (firstContLo b ≤ c ∧ c ≤ firstContHi b)

/-- Validity of a byte list as UTF-8, as checked by Rust
`String::from_utf8`.  A missing byte reads as 0, which fails every
continuation check, so short tails are rejected. -/
def validUtf8 : List Nat → Bool
  | [] => true
  | b :: l =>
    if b < 128 then
      validUtf8 l
    else if 194 ≤ b ∧ b ≤ 223 then
      isCont (l.getD 0 0) && validUtf8 (l.drop 1)
    else if 224 ≤ b ∧ b ≤ 239 then
      firstContOk b (l.getD 0 0) && isCont (l.getD 1 0) &&
        validUtf8 (l.drop 2)
    else if 240 ≤ b ∧ b ≤ 244 then
      firstContOk b (l.getD 0 0) && isCont (l.getD 1 0) &&
        isCont (l.getD 2 0) && validUtf8 (l.drop 3)
    else false
termination_by l => l.length
decreasing_by all_goals (simp; try omega)

/-- Structural twin of `validUtf8`, reducible in the kernel. -/
def validUtf8Fuel : Nat → List Nat → Bool
  | 0, _ => false
  | _ + 1, [] => true
  | fuel + 1, b :: l =>
    if b < 128 then
      validUtf8Fuel fuel l
    else if 194 ≤ b ∧ b ≤ 223 then
      isCont (l.getD 0 0) && validUtf8Fuel fuel (l.drop 1)
    else if 224 ≤ b ∧ b ≤ 239 then
      firstContOk b (l.getD 0 0) && isCont (l.getD 1 0) &&
        validUtf8Fuel fuel (l.drop 2)
    else if 240 ≤ b ∧ b ≤ 244 then
      firstContOk b (l.getD 0 0) && isCont (l.getD 1 0) &&
        isCont (l.getD 2 0) && validUtf8Fuel fuel (l.drop 3)
    else false

/-- Token, from src/parse.rs. -/
inductive Token where
  | Illegal : Token
  | Hash : Token
  | Ident : List Nat → Token
  | Str : List Nat → Token
  | Comma : Token
  | Colon : Token
  | Flavor : Token
  | Group : Token
  | Branch : Token
deriving DecidableEq

/-- Flavor, from src/parse.rs: one parsed manifest entry. -/
structure Flavor where
  repo : List Nat
  branch : List Nat
deriving DecidableEq

/-- ParseError, from src/parse.rs.  The Rust `Utf8` variant carries a
`Utf8Error` payload that the parser never inspects, so it is dropped. -/
inductive ParseError where
  | Utf8 : ParseError
  | Terminate : ParseError
  | EOF : ParseError
  | TypeMismatch : ParseError
  | Unexpected : Token → Token → ParseError
deriving DecidableEq

/-- ParseError::is_eof_error. -/
def ParseError.is_eof_error : ParseError → Bool
  | .EOF => true
  | _ => false

/-- Rust `String::from_utf8(vec)?` lifted into the parser monad: the
raw bytes on success, `ParseError::Utf8` (via the `From` impl) on
invalid UTF-8. -/
def from_utf8 (l : List Nat) : Except ParseError (List Nat) :=
  if validUtf8 l then .ok l else .error .Utf8

theorem validUtf8Fuel_eq :
    ∀ (fuel : Nat) (l : List Nat), l.length < fuel →
      validUtf8Fuel fuel l = validUtf8 l := by
  intro fuel
  induction fuel with
  | zero => intro l h; omega
  | succ n ih =>
      intro l h
      match l with
      | [] => rw [validUtf8Fuel, validUtf8]
      | b :: l =>
          have hlen : l.length < n := by
            simp only [List.length_cons] at h; omega
          rw [validUtf8Fuel, validUtf8]
          split_ifs
          · exact ih l hlen
          · rw [ih (l.drop 1) (by simp; omega)]
          · rw [ih (l.drop 2) (by simp; omega)]
          · rw [ih (l.drop 3) (by simp; omega)]
          · rfl

/-- Kernel-reducible twin of `from_utf8`. -/
def from_utf8F (l : List Nat) : Except ParseError (List Nat) :=
  if validUtf8Fuel (l.length + 1) l then .ok l else .error .Utf8

theorem from_utf8F_eq (l : List Nat) : from_utf8F l = from_utf8 l := by
  unfold from_utf8F from_utf8
  rw [validUtf8Fuel_eq (l.length + 1) l (Nat.lt_succ_self _)]

/-- Parser state: `buffer` is the enumerated remainder of the input
(absolute byte index paired with byte value), `offset` the count of
consumed bytes, `byte` the cached current byte. -/
structure Parser where
  buffer : List (Nat × Nat)
  offset : Nat
  byte : Option Nat
deriving DecidableEq

/-- Parser::new. -/
def Parser.new (s : List Nat) : Parser :=
  let bytes := s.enum
  { buffer := bytes.tail, offset := 0, byte := bytes.head?.map (fun x => x.2) }

/-- Parser::next. -/
def Parser.next (p : Parser) : Parser :=
  { buffer := p.buffer.tail
    offset := p.offset + 1
    byte := p.buffer.head?.map (fun x => x.2) }

/-- Rust `self.buffer.find(|&(_, ch)| ch == b'\n')`: consumes the
buffer through the first newline, returning its index, the byte and
the rest, or `none` when the buffer holds no newline. -/
def findNewline : List (Nat × Nat) → Option (Nat × Nat × List (Nat × Nat))
  | [] => none
  | (n, ch) :: r => if ch = 10 then some (n, ch, r) else findNewline r

/-- Parser::skip_to_next_line. -/
def Parser.skip_to_next_line (p : Parser) : Parser :=
  let m := p.offset + p.buffer.length
  match findNewline p.buffer with
  | some (n, ch, r) => { buffer := r, offset := n + 1, byte := some ch }
  | none => { buffer := [], offset := m, byte := none }

/-- Measure for termination: bytes still reachable by the parser. -/
def Parser.size (p : Parser) : Nat :=
  p.buffer.length + (match p.byte with | some _ => 1 | none => 0)

/-- The byte values of the buffer. -/
def Parser.bytes (p : Parser) : List Nat := p.buffer.map (fun x => x.2)

/-- The not-yet-consumed bytes: the cached byte followed by the buffer. -/
def Parser.stream (p : Parser) : List Nat :=
  (match p.byte with | some b => [b] | none => []) ++ p.bytes

/-- Well-formedness of a parser state: an empty byte cache means an
exhausted buffer.  It holds for `Parser.new` and is preserved by every
operation. -/
def Parser.wfP (p : Parser) : Prop := p.byte = none → p.buffer = []

theorem Parser.size_next (p : Parser) : p.next.size = p.buffer.length := by
  cases h : p.buffer <;> simp [Parser.next, Parser.size, h]

theorem Parser.size_next_lt (p : Parser) (b : Nat) (h : p.byte = some b) :
    p.next.size < p.size := by
  rw [Parser.size_next]
  simp [Parser.size, h]

/-- The while-let loop body of Parser::read_ident. -/
def read_ident_loop (p : Parser) (acc : List Nat) : Parser × List Nat :=
  match h : p.byte with
  | none => (p, acc)
  | some b =>
    if isAsciiAlphabetic b then read_ident_loop p.next (acc ++ [b])
    else (p, acc)
termination_by p.size
decreasing_by exact Parser.size_next_lt p b h

/-- Parser::read_ident. -/
def read_ident (p : Parser) : Except ParseError (Token × Parser) :=
  let r := read_ident_loop p []
  match from_utf8 r.2 with
  | .error e => .error e
  | .ok s =>
    if s = ascii "flavor" then .ok (Token.Flavor, r.1)
    else if s = ascii "group" then .ok (Token.Group, r.1)
    else if s = ascii "branch" then .ok (Token.Branch, r.1)
    else .ok (Token.Ident s, r.1)

/-- The while-let loop body of Parser::read_string. -/
def read_string_loop (p : Parser) (acc : List Nat) : Parser × List Nat :=
  match h : p.byte with
  | none => (p, acc)
  | some b =>
    if b = 39 then (p, acc)
    else read_string_loop p.next (acc ++ [b])
termination_by p.size
decreasing_by exact Parser.size_next_lt p b h

/-- Parser::read_string: the opening quote has already been consumed. -/
def read_string (p : Parser) : Except ParseError (Token × Parser) :=
  let r := read_string_loop p []
  if r.1.byte ≠ some 39 then .error .Terminate
  else
    match from_utf8 r.2 with
    | .ok s => .ok (Token.Str s, r.1.next)
    | .error e => .error e

theorem read_ident_loop_size (p : Parser) (acc : List Nat) :
    (read_ident_loop p acc).1.size ≤ p.size := by
  induction p, acc using read_ident_loop.induct with
  | case1 p acc h => rw [read_ident_loop, h]
  | case2 p acc b h hb ih =>
      rw [read_ident_loop, h]
      simp only [hb, if_true]
      exact le_trans ih (le_of_lt (Parser.size_next_lt p b h))
  | case3 p acc b h hb => rw [read_ident_loop, h]; simp [hb]

theorem read_string_loop_size (p : Parser) (acc : List Nat) :
    (read_string_loop p acc).1.size ≤ p.size := by
  induction p, acc using read_string_loop.induct with
  | case1 p acc h => rw [read_string_loop, h]
  | case2 p acc h => rw [read_string_loop, h]; simp
  | case3 p acc b h hb ih =>
      rw [read_string_loop, h]
      simp only [hb, if_false]
      exact le_trans ih (le_of_lt (Parser.size_next_lt p b h))

theorem read_ident_size (p : Parser) (t : Token) (q : Parser)
    (h : read_ident p = .ok (t, q)) : q.size ≤ p.size := by
  have hl := read_ident_loop_size p []
  unfold read_ident at h
  rcases hu : from_utf8 (read_ident_loop p []).2 with e | s <;>
    simp only [hu] at h
  · cases h
  · split at h
    · cases h; exact hl
    · split at h
      · cases h; exact hl
      · split at h <;> cases h <;> exact hl

theorem read_string_size (p : Parser) (t : Token) (q : Parser)
    (h : read_string p = .ok (t, q)) : q.size < p.size := by
  have h1 := read_string_loop_size p []
  unfold read_string at h
  by_cases hq : (read_string_loop p []).1.byte = some 39
  · simp only [hq, ne_eq, not_true_eq_false, if_false] at h
    rcases hu : from_utf8 (read_string_loop p []).2 with e | s <;>
      simp only [hu] at h
    · cases h
    · cases h
      calc (read_string_loop p []).1.next.size
          < (read_string_loop p []).1.size := Parser.size_next_lt _ 39 hq
        _ ≤ p.size := h1
  · simp only [hq, ne_eq, not_false_eq_true, if_true] at h
    cases h

/-- Parser::next_token. -/
def next_token (p : Parser) : Except ParseError (Token × Parser) :=
  match h : p.byte with
  | none => .error .EOF
  | some b =>
    if isAsciiAlphabetic b then read_ident p
    else
      let p1 := p.next
      if b = 32 ∨ b = 10 then next_token p1
      else if b = 39 then read_string p1
      else if b = 35 then .ok (Token.Hash, p1)
      else if b = 44 then .ok (Token.Comma, p1)
      else if b = 58 then .ok (Token.Colon, p1)
      else .ok (Token.Illegal, p1)
termination_by p.size
decreasing_by exact Parser.size_next_lt p b h

theorem findNewline_length (l : List (Nat × Nat)) (n c : Nat)
    (r : List (Nat × Nat)) (h : findNewline l = some (n, c, r)) :
    r.length < l.length := by
  induction l with
  | nil => simp [findNewline] at h
  | cons x xs ih =>
      rw [findNewline] at h
      split at h
      · cases h; simp
      · exact Nat.lt_trans (ih h) (by simp)

theorem skip_size_le (p : Parser) : p.skip_to_next_line.size ≤ p.size := by
  unfold Parser.skip_to_next_line
  rcases hf : findNewline p.buffer with _ | ⟨n, c, r⟩
  · simp [Parser.size]
  · have := findNewline_length p.buffer n c r hf
    simp only [Parser.size]
    omega

theorem read_ident_state (p : Parser) (t : Token) (q : Parser)
    (h : read_ident p = .ok (t, q)) : q = (read_ident_loop p []).1 := by
  unfold read_ident at h
  rcases hu : from_utf8 (read_ident_loop p []).2 with e | s <;>
    simp only [hu] at h
  · cases h
  · split at h
    · cases h; rfl
    · split at h
      · cases h; rfl
      · split at h <;> cases h <;> rfl

theorem read_ident_size_lt (p : Parser) (b : Nat) (hb : p.byte = some b)
    (ha : isAsciiAlphabetic b = true) (t : Token) (q : Parser)
    (h : read_ident p = .ok (t, q)) : q.size < p.size := by
  have hq := read_ident_state p t q h
  have hstep : read_ident_loop p [] = read_ident_loop p.next ([] ++ [b]) := by
    rw [read_ident_loop, hb]; simp [ha]
  rw [hq, hstep]
  exact Nat.lt_of_le_of_lt (read_ident_loop_size p.next ([] ++ [b]))
    (Parser.size_next_lt p b hb)

theorem next_token_size (p : Parser) (t : Token) (q : Parser)
    (h : next_token p = .ok (t, q)) : q.size < p.size := by
  induction p using next_token.induct generalizing t q with
  | case1 p hn => rw [next_token, hn] at h; cases h
  | case2 p b hb ha =>
      rw [next_token, hb] at h
      simp only [ha, if_true] at h
      exact read_ident_size_lt p b hb ha t q h
  | case3 p b hb ha p1 hws ih =>
      rw [next_token, hb] at h
      simp only [ha, hws, if_true, if_false] at h
      exact Nat.lt_trans (ih t q h) (Parser.size_next_lt p b hb)
  | case4 p hb ha hws =>
      rw [next_token, hb] at h
      simp only [isAsciiAlphabetic] at h
      norm_num at h
      exact Nat.lt_trans (read_string_size p.next t q h)
        (Parser.size_next_lt p 39 hb)
  | case5 p hb ha hws hq =>
      rw [next_token, hb] at h
      simp only [isAsciiAlphabetic] at h
      norm_num at h
      rcases h with ⟨rfl, rfl⟩
      exact Parser.size_next_lt p 35 hb
  | case6 p hb ha hws hq hh =>
      rw [next_token, hb] at h
      simp only [isAsciiAlphabetic] at h
      norm_num at h
      rcases h with ⟨rfl, rfl⟩
      exact Parser.size_next_lt p 44 hb
  | case7 p hb ha hws hq hh hc =>
      rw [next_token, hb] at h
      simp only [isAsciiAlphabetic] at h
      norm_num at h
      rcases h with ⟨rfl, rfl⟩
      exact Parser.size_next_lt p 58 hb
  | case8 p b hb ha hws hq hh hc hco =>
      rw [next_token, hb] at h
      simp only [ha, hws, hq, hh, hc, hco, if_true, if_false] at h
      rcases h with ⟨rfl, rfl⟩
      exact Parser.size_next_lt p b hb

/-- Parser::parse_str. -/
def parse_str (p : Parser) : Except ParseError (List Nat × Parser) :=
  match next_token p with
  | .ok (Token.Str s, p1) => .ok (s, p1)
  | .ok (_, _) => .error .TypeMismatch
  | .error e => .error e

/-- Parser::parse_colon. -/
def parse_colon (p : Parser) : Except ParseError Parser :=
  match next_token p with
  | .ok (Token.Colon, p1) => .ok p1
  | .ok (t, _) => .error (.Unexpected t .Colon)
  | .error e => .error e

/-- Parser::parse_branch. -/
def parse_branch (p : Parser) : Except ParseError Parser :=
  match next_token p with
  | .ok (Token.Branch, p1) => .ok p1
  | .ok (t, _) => .error (.Unexpected t .Branch)
  | .error e => .error e

theorem parse_str_size (p : Parser) (s : List Nat) (q : Parser)
    (h : parse_str p = .ok (s, q)) : q.size < p.size := by
  unfold parse_str at h
  rcases hn : next_token p with e | ⟨t, p1⟩ <;> rw [hn] at h
  · cases h
  · cases t <;> simp only at h <;> try cases h
    exact next_token_size p _ q hn

theorem parse_colon_size (p : Parser) (q : Parser)
    (h : parse_colon p = .ok q) : q.size < p.size := by
  unfold parse_colon at h
  rcases hn : next_token p with e | ⟨t, p1⟩ <;> rw [hn] at h
  · cases h
  · cases t <;> simp only at h <;> try cases h
    exact next_token_size p _ q hn

theorem parse_branch_size (p : Parser) (q : Parser)
    (h : parse_branch p = .ok q) : q.size < p.size := by
  unfold parse_branch at h
  rcases hn : next_token p with e | ⟨t, p1⟩ <;> rw [hn] at h
  · cases h
  · cases t <;> simp only at h <;> try cases h
    exact next_token_size p _ q hn

/-- Parser::parse_attrs.  The Rust method mutates `vec` (a pop that may
be followed by a push) even on paths that end in an error, so the
embedding returns the updated list together with the outcome. -/
def parse_attrs (p : Parser) (vec : List Flavor) :
    List Flavor × Except ParseError Parser :=
  match parse_branch p with
  | .error e => (vec, .error e)
  | .ok p1 =>
    match vec.getLast? with
    | none => (vec, .error (.Unexpected .Comma Token.Flavor))
    | some f =>
      let vec1 := vec.dropLast
      match parse_colon p1 with
      | .error e => (vec1, .error e)
      | .ok p2 =>
        match parse_str p2 with
        | .error e => (vec1, .error e)
        | .ok (s, p3) => (vec1 ++ [{ f with branch := s }], .ok p3)

theorem parse_attrs_size (p : Parser) (vec vec1 : List Flavor) (q : Parser)
    (h : parse_attrs p vec = (vec1, .ok q)) : q.size < p.size := by
  unfold parse_attrs at h
  rcases hb : parse_branch p with e | p1 <;> simp only [hb] at h
  · cases h
  · rcases hl : vec.getLast? with _ | f <;> simp only [hl] at h
    · cases h
    · rcases hc : parse_colon p1 with e | p2 <;> simp only [hc] at h
      · cases h
      · rcases hs : parse_str p2 with e | ⟨s, p3⟩ <;> simp only [hs] at h
        · cases h
        · cases h
          calc q.size < p2.size := parse_str_size p2 s q hs
            _ < p1.size := parse_colon_size p1 p2 hc
            _ < p.size := parse_branch_size p p1 hb

/-- Parser::parse1: the statement loop.  The Rust loop exits only
through an error (a clean end of input surfaces as `ParseError::EOF`),
so the embedding returns the final entry list together with that
error. -/
def parse1 (p : Parser) (vec : List Flavor) : List Flavor × ParseError :=
  match hn : next_token p with
  | .error e => (vec, e)
  | .ok (Token.Hash, p1) => parse1 p1.skip_to_next_line vec
  | .ok (Token.Flavor, p1) =>
    match hs : parse_str p1 with
    | .error e => (vec, e)
    | .ok (s, p2) => parse1 p2 (vec ++ [{ repo := s, branch := ascii "master" }])
  | .ok (Token.Comma, p1) =>
    match ha : parse_attrs p1 vec with
    | (vec1, .error e) => (vec1, e)
    | (vec1, .ok p2) => parse1 p2 vec1
  | .ok (t, p1) => (vec, .Unexpected t Token.Flavor)
termination_by p.size
decreasing_by
  · exact Nat.lt_of_le_of_lt (skip_size_le p1) (next_token_size p _ p1 hn)
  · exact Nat.lt_trans (parse_str_size p1 s p2 hs) (next_token_size p _ p1 hn)
  · exact Nat.lt_trans (parse_attrs_size p1 vec vec1 p2 ha)
      (next_token_size p _ p1 hn)

theorem parse1_eq_err (p : Parser) (vec : List Flavor) (e : ParseError)
    (hn : next_token p = .error e) : parse1 p vec = (vec, e) := by
  rw [parse1]
  split
  next e2 heq => rw [hn] at heq; cases heq; rfl
  next p1x heq => rw [hn] at heq; cases heq
  next p1x heq => rw [hn] at heq; cases heq
  next p1x heq => rw [hn] at heq; cases heq
  next t p1x h1 h2 h3 heq => rw [hn] at heq; cases heq

theorem parse1_eq_hash (p : Parser) (vec : List Flavor) (p1 : Parser)
    (hn : next_token p = .ok (Token.Hash, p1)) :
    parse1 p vec = parse1 p1.skip_to_next_line vec := by
  rw [parse1]
  split
  next e2 heq => rw [hn] at heq; cases heq
  next p1x heq => rw [hn] at heq; cases heq; rfl
  next p1x heq => rw [hn] at heq; cases heq
  next p1x heq => rw [hn] at heq; cases heq
  next t p1x h1 h2 h3 heq => rw [hn] at heq; cases heq; exact absurd rfl h1

theorem parse1_eq_flavor_err (p : Parser) (vec : List Flavor) (p1 : Parser)
    (e : ParseError) (hn : next_token p = .ok (Token.Flavor, p1))
    (hs : parse_str p1 = .error e) : parse1 p vec = (vec, e) := by
  rw [parse1]
  split
  next e2 heq => rw [hn] at heq; cases heq
  next p1x heq => rw [hn] at heq; cases heq
  next p1x heq =>
    rw [hn] at heq; cases heq
    split
    next e2 heq2 => rw [hs] at heq2; cases heq2; rfl
    next s2 p2x heq2 => rw [hs] at heq2; cases heq2
  next p1x heq => rw [hn] at heq; cases heq
  next t p1x h1 h2 h3 heq => rw [hn] at heq; cases heq; exact absurd rfl h2

theorem parse1_eq_flavor_ok (p : Parser) (vec : List Flavor) (p1 : Parser)
    (s : List Nat) (p2 : Parser) (hn : next_token p = .ok (Token.Flavor, p1))
    (hs : parse_str p1 = .ok (s, p2)) :
    parse1 p vec =
      parse1 p2 (vec ++ [{ repo := s, branch := ascii "master" }]) := by
  rw [parse1]
  split
  next e2 heq => rw [hn] at heq; cases heq
  next p1x heq => rw [hn] at heq; cases heq
  next p1x heq =>
    rw [hn] at heq; cases heq
    split
    next e2 heq2 => rw [hs] at heq2; cases heq2
    next s2 p2x heq2 => rw [hs] at heq2; cases heq2; rfl
  next p1x heq => rw [hn] at heq; cases heq
  next t p1x h1 h2 h3 heq => rw [hn] at heq; cases heq; exact absurd rfl h2

theorem parse1_eq_comma_err (p : Parser) (vec vec1 : List Flavor)
    (p1 : Parser) (e : ParseError)
    (hn : next_token p = .ok (Token.Comma, p1))
    (ha : parse_attrs p1 vec = (vec1, .error e)) :
    parse1 p vec = (vec1, e) := by
  rw [parse1]
  split
  next e2 heq => rw [hn] at heq; cases heq
  next p1x heq => rw [hn] at heq; cases heq
  next p1x heq => rw [hn] at heq; cases heq
  next p1x heq =>
    rw [hn] at heq; cases heq
    split
    next v2 e2 heq2 => rw [ha] at heq2; cases heq2; rfl
    next v2 p2x heq2 => rw [ha] at heq2; cases heq2
  next t p1x h1 h2 h3 heq => rw [hn] at heq; cases heq; exact absurd rfl h3

theorem parse1_eq_comma_ok (p : Parser) (vec vec1 : List Flavor)
    (p1 p2 : Parser) (hn : next_token p = .ok (Token.Comma, p1))
    (ha : parse_attrs p1 vec = (vec1, .ok p2)) :
    parse1 p vec = parse1 p2 vec1 := by
  rw [parse1]
  split
  next e2 heq => rw [hn] at heq; cases heq
  next p1x heq => rw [hn] at heq; cases heq
  next p1x heq => rw [hn] at heq; cases heq
  next p1x heq =>
    rw [hn] at heq; cases heq
    split
    next v2 e2 heq2 => rw [ha] at heq2; cases heq2
    next v2 p2x heq2 => rw [ha] at heq2; cases heq2; rfl
  next t p1x h1 h2 h3 heq => rw [hn] at heq; cases heq; exact absurd rfl h3

theorem parse1_eq_other (p : Parser) (vec : List Flavor) (t : Token)
    (p1 : Parser) (hn : next_token p = .ok (t, p1))
    (hnh : t ≠ Token.Hash) (hnf : t ≠ Token.Flavor)
    (hnc : t ≠ Token.Comma) :
    parse1 p vec = (vec, .Unexpected t Token.Flavor) := by
  rw [parse1]
  split
  next e2 heq => rw [hn] at heq; cases heq
  next p1x heq => rw [hn] at heq; cases heq; exact absurd rfl hnh
  next p1x heq => rw [hn] at heq; cases heq; exact absurd rfl hnf
  next p1x heq => rw [hn] at heq; cases heq; exact absurd rfl hnc
  next t2 p1x h1 h2 h3 heq => rw [hn] at heq; cases heq; rfl

/-- Parser::parse. -/
def parse (p : Parser) : Except ParseError (List Flavor) :=
  let r := parse1 p []
  if r.2.is_eof_error then .ok r.1 else .error r.2

/-- Parsing a byte list from scratch, as `Parser::new(s).parse()`. -/
def parseBytes (s : List Nat) : Except ParseError (List Flavor) :=
  parse (Parser.new s)

/-!
Fuel-indexed twins of the recursive parser functions.  The originals
above use well-founded recursion on `Parser.size` and therefore do not
reduce inside the kernel; the twins below recurse structurally on a
fuel bound and are proved to agree with the originals whenever the
fuel is at least the parser size, so concrete runs can be evaluated by
`rfl` and `decide`.
-/

def read_ident_loopF : Nat → Parser → List Nat → Parser × List Nat
  | 0, p, acc => (p, acc)
  | fuel + 1, p, acc =>
    match p.byte with
    | none => (p, acc)
    | some b =>
      if isAsciiAlphabetic b then read_ident_loopF fuel p.next (acc ++ [b])
      else (p, acc)

def read_string_loopF : Nat → Parser → List Nat → Parser × List Nat
  | 0, p, acc => (p, acc)
  | fuel + 1, p, acc =>
    match p.byte with
    | none => (p, acc)
    | some b =>
      if b = 39 then (p, acc)
      else read_string_loopF fuel p.next (acc ++ [b])

def read_identF (fuel : Nat) (p : Parser) : Except ParseError (Token × Parser) :=
  let r := read_ident_loopF fuel p []
  match from_utf8F r.2 with
  | .error e => .error e
  | .ok s =>
    if s = ascii "flavor" then .ok (Token.Flavor, r.1)
    else if s = ascii "group" then .ok (Token.Group, r.1)
    else if s = ascii "branch" then .ok (Token.Branch, r.1)
    else .ok (Token.Ident s, r.1)

def read_stringF (fuel : Nat) (p : Parser) : Except ParseError (Token × Parser) :=
  let r := read_string_loopF fuel p []
  if r.1.byte ≠ some 39 then .error .Terminate
  else
    match from_utf8F r.2 with
    | .ok s => .ok (Token.Str s, r.1.next)
    | .error e => .error e

def next_tokenF : Nat → Parser → Except ParseError (Token × Parser)
  | 0, _ => .error .EOF
  | fuel + 1, p =>
    match p.byte with
    | none => .error .EOF
    | some b =>
      if isAsciiAlphabetic b then read_identF (fuel + 1) p
      else
        let p1 := p.next
        if b = 32 ∨ b = 10 then next_tokenF fuel p1
        else if b = 39 then read_stringF fuel p1
        else if b = 35 then .ok (Token.Hash, p1)
        else if b = 44 then .ok (Token.Comma, p1)
        else if b = 58 then .ok (Token.Colon, p1)
        else .ok (Token.Illegal, p1)

def parse_strF (fuel : Nat) (p : Parser) :
    Except ParseError (List Nat × Parser) :=
  match next_tokenF fuel p with
  | .ok (Token.Str s, p1) => .ok (s, p1)
  | .ok (_, _) => .error .TypeMismatch
  | .error e => .error e

def parse_colonF (fuel : Nat) (p : Parser) : Except ParseError Parser :=
  match next_tokenF fuel p with
  | .ok (Token.Colon, p1) => .ok p1
  | .ok (t, _) => .error (.Unexpected t .Colon)
  | .error e => .error e

def parse_branchF (fuel : Nat) (p : Parser) : Except ParseError Parser :=
  match next_tokenF fuel p with
  | .ok (Token.Branch, p1) => .ok p1
  | .ok (t, _) => .error (.Unexpected t .Branch)
  | .error e => .error e

def parse_attrsF (fuel : Nat) (p : Parser) (vec : List Flavor) :
    List Flavor × Except ParseError Parser :=
  match parse_branchF fuel p with
  | .error e => (vec, .error e)
  | .ok p1 =>
    match vec.getLast? with
    | none => (vec, .error (.Unexpected .Comma Token.Flavor))
    | some f =>
      let vec1 := vec.dropLast
      match parse_colonF fuel p1 with
      | .error e => (vec1, .error e)
      | .ok p2 =>
        match parse_strF fuel p2 with
        | .error e => (vec1, .error e)
        | .ok (s, p3) => (vec1 ++ [{ f with branch := s }], .ok p3)

def parse1F : Nat → Parser → List Flavor → List Flavor × ParseError
  | 0, _, vec => (vec, .EOF)
  | fuel + 1, p, vec =>
    match next_tokenF (fuel + 1) p with
    | .error e => (vec, e)
    | .ok (Token.Hash, p1) => parse1F fuel p1.skip_to_next_line vec
    | .ok (Token.Flavor, p1) =>
      match parse_strF (fuel + 1) p1 with
      | .error e => (vec, e)
      | .ok (s, p2) =>
          parse1F fuel p2 (vec ++ [{ repo := s, branch := ascii "master" }])
    | .ok (Token.Comma, p1) =>
      match parse_attrsF (fuel + 1) p1 vec with
      | (vec1, .error e) => (vec1, e)
      | (vec1, .ok p2) => parse1F fuel p2 vec1
    | .ok (t, p1) => (vec, .Unexpected t Token.Flavor)

def parseF (fuel : Nat) (p : Parser) : Except ParseError (List Flavor) :=
  let r := parse1F fuel p []
  if r.2.is_eof_error then .ok r.1 else .error r.2

def parseBytesF (s : List Nat) : Except ParseError (List Flavor) :=
  parseF (s.length + 1) (Parser.new s)

theorem size_zero_byte (p : Parser) (h : p.size = 0) : p.byte = none := by
  rcases hb : p.byte with _ | b
  · rfl
  · simp [Parser.size, hb] at h

theorem read_ident_loopF_eq (fuel : Nat) :
    ∀ (p : Parser) (acc : List Nat), p.size ≤ fuel →
      read_ident_loopF fuel p acc = read_ident_loop p acc := by
  induction fuel with
  | zero =>
      intro p acc h
      have hb := size_zero_byte p (Nat.le_zero.mp h)
      rw [read_ident_loopF, read_ident_loop, hb]
  | succ n ih =>
      intro p acc h
      rw [read_ident_loopF]
      rcases hb : p.byte with _ | b
      · rw [read_ident_loop, hb]
      · rw [read_ident_loop, hb]
        by_cases ha : isAsciiAlphabetic b = true
        · simp only [ha, if_true]
          exact ih p.next (acc ++ [b])
            (Nat.lt_succ_iff.mp (Nat.lt_of_lt_of_le
              (Parser.size_next_lt p b hb) h))
        · simp [ha]

theorem read_string_loopF_eq (fuel : Nat) :
    ∀ (p : Parser) (acc : List Nat), p.size ≤ fuel →
      read_string_loopF fuel p acc = read_string_loop p acc := by
  induction fuel with
  | zero =>
      intro p acc h
      have hb := size_zero_byte p (Nat.le_zero.mp h)
      rw [read_string_loopF, read_string_loop, hb]
  | succ n ih =>
      intro p acc h
      rw [read_string_loopF]
      rcases hb : p.byte with _ | b
      · rw [read_string_loop, hb]
      · rw [read_string_loop, hb]
        by_cases hq : b = 39
        · simp only [hq, if_true]
        · simp only [hq, if_false]
          exact ih p.next (acc ++ [b])
            (Nat.lt_succ_iff.mp (Nat.lt_of_lt_of_le
              (Parser.size_next_lt p b hb) h))

theorem read_identF_eq (fuel : Nat) (p : Parser) (h : p.size ≤ fuel) :
    read_identF fuel p = read_ident p := by
  unfold read_identF read_ident
  rw [read_ident_loopF_eq fuel p [] h]
  simp only [from_utf8F_eq]

theorem read_stringF_eq (fuel : Nat) (p : Parser) (h : p.size ≤ fuel) :
    read_stringF fuel p = read_string p := by
  unfold read_stringF read_string
  rw [read_string_loopF_eq fuel p [] h]
  simp only [from_utf8F_eq]

theorem next_tokenF_eq (fuel : Nat) :
    ∀ p : Parser, p.size ≤ fuel → next_tokenF fuel p = next_token p := by
  induction fuel with
  | zero =>
      intro p h
      have hb := size_zero_byte p (Nat.le_zero.mp h)
      rw [next_tokenF, next_token, hb]
  | succ n ih =>
      intro p h
      rw [next_tokenF]
      rcases hb : p.byte with _ | b
      · rw [next_token, hb]
      · rw [next_token, hb]
        have hnext : p.next.size ≤ n :=
          Nat.lt_succ_iff.mp (Nat.lt_of_lt_of_le (Parser.size_next_lt p b hb) h)
        by_cases ha : isAsciiAlphabetic b = true
        · simp only [ha, if_true]
          exact read_identF_eq (n + 1) p h
        · simp only [ha, if_false]
          by_cases hws : b = 32 ∨ b = 10
          · simp only [hws, if_true]
            exact ih p.next hnext
          · simp only [hws, if_false]
            by_cases hq : b = 39
            · simp only [hq, if_true]
              exact read_stringF_eq n p.next hnext
            · simp [ha, hws, hq]

theorem parse_strF_eq (fuel : Nat) (p : Parser) (h : p.size ≤ fuel) :
    parse_strF fuel p = parse_str p := by
  unfold parse_strF parse_str
  rw [next_tokenF_eq fuel p h]

theorem parse_colonF_eq (fuel : Nat) (p : Parser) (h : p.size ≤ fuel) :
    parse_colonF fuel p = parse_colon p := by
  unfold parse_colonF parse_colon
  rw [next_tokenF_eq fuel p h]

theorem parse_branchF_eq (fuel : Nat) (p : Parser) (h : p.size ≤ fuel) :
    parse_branchF fuel p = parse_branch p := by
  unfold parse_branchF parse_branch
  rw [next_tokenF_eq fuel p h]

theorem parse_attrsF_eq (fuel : Nat) (p : Parser) (vec : List Flavor)
    (h : p.size ≤ fuel) : parse_attrsF fuel p vec = parse_attrs p vec := by
  unfold parse_attrsF parse_attrs
  rw [parse_branchF_eq fuel p h]
  rcases hb : parse_branch p with e | p1
  · rfl
  · have h1 : p1.size ≤ fuel :=
      Nat.le_of_lt (Nat.lt_of_lt_of_le (parse_branch_size p p1 hb) h)
    rcases hl : vec.getLast? with _ | f
    · rfl
    · simp only
      rw [parse_colonF_eq fuel p1 h1]
      rcases hc : parse_colon p1 with e | p2
      · rfl
      · have h2 : p2.size ≤ fuel :=
          Nat.le_of_lt (Nat.lt_of_lt_of_le (parse_colon_size p1 p2 hc) h1)
        simp only
        rw [parse_strF_eq fuel p2 h2]

theorem parse1F_eq (fuel : Nat) :
    ∀ (p : Parser) (vec : List Flavor), p.size ≤ fuel →
      parse1F fuel p vec = parse1 p vec := by
  induction fuel with
  | zero =>
      intro p vec h
      have hb := size_zero_byte p (Nat.le_zero.mp h)
      have hnt : next_token p = .error .EOF := by rw [next_token, hb]
      rw [parse1F, parse1, hnt]
  | succ n ih =>
      intro p vec h
      rw [parse1F, parse1, next_tokenF_eq (n + 1) p h]
      rcases hn : next_token p with e | ⟨t, p1⟩
      · rfl
      · have h1 : p1.size ≤ n :=
          Nat.lt_succ_iff.mp (Nat.lt_of_lt_of_le (next_token_size p t p1 hn) h)
        cases t with
        | Illegal => rfl
        | Hash =>
            exact ih p1.skip_to_next_line vec
              (le_trans (skip_size_le p1) h1)
        | Ident s => rfl
        | Str s => rfl
        | Comma =>
            dsimp only
            rw [parse_attrsF_eq (n + 1) p1 vec (Nat.le_succ_of_le h1)]
            rcases ha : parse_attrs p1 vec with ⟨vec1, e | p2⟩
            · rfl
            · exact ih p2 vec1 (Nat.le_of_lt (Nat.lt_of_lt_of_le
                (parse_attrs_size p1 vec vec1 p2 ha) h1))
        | Colon => rfl
        | Flavor =>
            dsimp only
            rw [parse_strF_eq (n + 1) p1 (Nat.le_succ_of_le h1)]
            rcases hs : parse_str p1 with e | ⟨s, p2⟩
            · rfl
            · exact ih p2 _ (Nat.le_of_lt (Nat.lt_of_lt_of_le
                (parse_str_size p1 s p2 hs) h1))
        | Group => rfl
        | Branch => rfl

theorem parseF_eq (fuel : Nat) (p : Parser) (h : p.size ≤ fuel) :
    parseF fuel p = parse p := by
  unfold parseF parse
  rw [parse1F_eq fuel p [] h]

theorem size_new_le (s : List Nat) : (Parser.new s).size ≤ s.length := by
  cases s with
  | nil => simp [Parser.new, Parser.size, List.enum]
  | cons b l =>
      simp [Parser.new, Parser.size, List.enum_cons]

theorem parseBytesF_eq (s : List Nat) : parseBytesF s = parseBytes s := by
  unfold parseBytesF parseBytes
  exact parseF_eq (s.length + 1) (Parser.new s)
    (Nat.le_succ_of_le (size_new_le s))

/-- Byte list of a single-quoted string literal, quotes included. -/
def lit (s : String) : List Nat := [39] ++ ascii s ++ [39]

/-!
Synchronizer (install mode).  The crate functions `vim_flavor::install`
and `vim_flavor::update` are called from src/main.rs but their
implementation module is not among the sources, so the synchronizer is
modelled from the specification.
-/

/-- Modelled from the spec: the byte classes kept by the directory-name
sanitizer of section 4.3, namely alphanumeric bytes, `-`, `_` and `.`;
every other byte is replaced with `_`. -/
def sanitizeByte (b : Nat) : Nat :=
  if isAsciiAlphabetic b ∨ (48 ≤ b ∧ b ≤ 57) ∨ b = 45 ∨ b = 95 ∨ b = 46
  then b else 95

/-- Modelled from the spec: the local directory name derived from a
repo reference (section 4.3). -/
def sanitize (repo : List Nat) : List Nat := repo.map sanitizeByte

/-- Modelled from the spec: SyncError of section 3 — the backend could
not be started, or it exited with a nonzero status (carrying the
status and the offending entry), or a parse failure propagated from
upstream. -/
inductive SyncError where
  | CouldNotStart : Flavor → SyncError
  | NonZeroExit : Nat → Flavor → SyncError
  | Parse : ParseError → SyncError
deriving DecidableEq

/-- Modelled from the spec: the filesystem state the synchronizer
observes and produces — the set of directories existing under the
root — together with the log of entries for which the backend was
invoked during the current run. -/
structure SyncState where
  dirs : List (List Nat)
  calls : List Flavor
deriving DecidableEq

/-- Modelled from the spec: one install-mode step (section 4.3).  The
backend oracle returns the exit status of the clone invocation (0 is
success).  If the derived directory already exists under the root the
entry is skipped — no error and no backend invocation; otherwise the
backend is invoked and, on success, the directory comes into being. -/
def install1 (backend : Flavor → Nat) (st : SyncState) (f : Flavor) :
    SyncState × Option SyncError :=
  if st.dirs.contains (sanitize f.repo) then (st, none)
  else
    let st1 : SyncState := { dirs := st.dirs, calls := st.calls ++ [f] }
    if backend f = 0 then
      ({ st1 with dirs := st.dirs ++ [sanitize f.repo] }, none)
    else
      (st1, some (.NonZeroExit (backend f) f))

/-- Modelled from the spec: install mode over the entry list, in
manifest order, stopping at the first failure (sections 4.3 and 7). -/
def install (backend : Flavor → Nat) :
    List Flavor → SyncState → SyncState × Option SyncError
  | [], st => (st, none)
  | f :: fs, st =>
    match install1 backend st f with
    | (st1, none) => install backend fs st1
    | (st1, some e) => (st1, some e)

/-!
UTF-8 facts used to show the parser never raises `ParseError::Utf8`:
ASCII-only byte lists are valid, a valid list stays valid after
dropping an ASCII prefix, and splitting a valid list at the first
occurrence of an ASCII byte leaves two valid parts.
-/

theorem getD_cons_zero (c : Nat) (t : List Nat) (d : Nat) :
    (c :: t).getD 0 d = c := rfl

theorem getD_cons_succ (c : Nat) (t : List Nat) (n d : Nat) :
    (c :: t).getD (n + 1) d = t.getD n d := rfl

theorem firstContLo_ge (b : Nat) : 128 <= firstContLo b := by
  unfold firstContLo
  split_ifs <;> omega

theorem firstContOk_ge (b c : Nat) (h : firstContOk b c = true) :
    128 <= c := by
  simp only [firstContOk, decide_eq_true_eq] at h
  have := firstContLo_ge b
  omega

theorem firstContOk_zero (b : Nat) : firstContOk b 0 = false := by
  simp only [firstContOk, decide_eq_false_iff_not]
  intro hc
  have := firstContLo_ge b
  omega

theorem isCont_ge (c : Nat) (h : isCont c = true) : 128 <= c := by
  simp only [isCont, decide_eq_true_eq] at h
  omega

theorem validUtf8_ascii_cons (b : Nat) (l : List Nat) (h : b < 128) :
    validUtf8 (b :: l) = validUtf8 l := by
  rw [validUtf8, if_pos h]

theorem validUtf8_of_all_ascii (l : List Nat) (h : forall b, b ∈ l -> b < 128) :
    validUtf8 l = true := by
  induction l with
  | nil => rw [validUtf8]
  | cons b t ih =>
      rw [validUtf8_ascii_cons b t (h b (by simp))]
      exact ih (fun c hc => h c (by simp [hc]))

theorem validUtf8_dropWhile_ascii (P : Nat -> Bool)
    (hP : forall b, P b = true -> b < 128) :
    forall l : List Nat, validUtf8 l = true ->
      validUtf8 (l.dropWhile P) = true := by
  intro l
  induction l with
  | nil => intro h; exact h
  | cons b t ih =>
      intro h
      rw [List.dropWhile_cons]
      by_cases hb : P b = true
      · rw [if_pos hb]
        exact ih ((validUtf8_ascii_cons b t (hP b hb)) ▸ h)
      · rw [if_neg hb]
        exact h

/-- A valid list starting with a non-ASCII byte splits as the lead
byte, its continuation bytes, and a valid remainder; moreover the lead
and continuation bytes can be prefixed to any list without affecting
its validity check. -/
theorem validUtf8_decomp (b : Nat) (l : List Nat)
    (h : validUtf8 (b :: l) = true) (hb : 128 <= b) :
    ∃ cs r, l = cs ++ r ∧ (forall c, c ∈ cs -> 128 <= c) ∧
      validUtf8 r = true ∧
      (forall X : List Nat, validUtf8 (b :: (cs ++ X)) = validUtf8 X) := by
  rw [validUtf8] at h
  have h1 : ¬ b < 128 := by omega
  rw [if_neg h1] at h
  by_cases h2 : 194 <= b ∧ b <= 223
  · rw [if_pos h2] at h
    match l with
    | [] =>
        simp only [Bool.and_eq_true] at h
        exact absurd h.1 (by decide)
    | c1 :: r =>
        simp only [Bool.and_eq_true, getD_cons_zero, List.drop_succ_cons,
          List.drop_zero] at h
        obtain ⟨hc1, hr⟩ := h
        refine ⟨[c1], r, rfl, ?_, hr, ?_⟩
        · intro c hc
          simp only [List.mem_singleton] at hc
          subst hc
          exact isCont_ge _ hc1
        · intro X
          rw [List.singleton_append, validUtf8, if_neg h1, if_pos h2]
          simp [hc1]
  · rw [if_neg h2] at h
    by_cases h3 : 224 <= b ∧ b <= 239
    · rw [if_pos h3] at h
      match l with
      | [] =>
          simp only [Bool.and_eq_true] at h
          have h0 : firstContOk b 0 = true := h.1.1
          rw [firstContOk_zero b] at h0
          cases h0
      | [c1] =>
          simp only [Bool.and_eq_true, getD_cons_zero, getD_cons_succ] at h
          exact absurd h.1.2 (by decide)
      | c1 :: c2 :: r =>
          simp only [Bool.and_eq_true, getD_cons_zero, getD_cons_succ,
            List.drop_succ_cons, List.drop_zero] at h
          obtain ⟨⟨hc1, hc2⟩, hr⟩ := h
          refine ⟨[c1, c2], r, rfl, ?_, hr, ?_⟩
          · intro c hc
            simp only [List.mem_cons, List.mem_singleton] at hc
            rcases hc with rfl | rfl | hfalse
            · exact firstContOk_ge b c hc1
            · exact isCont_ge c hc2
            · cases hfalse
          · intro X
            rw [List.cons_append, List.singleton_append, validUtf8,
              if_neg h1, if_neg h2, if_pos h3]
            simp [hc1, hc2]
    · rw [if_neg h3] at h
      by_cases h4 : 240 <= b ∧ b <= 244
      · rw [if_pos h4] at h
        match l with
        | [] =>
            simp only [Bool.and_eq_true] at h
            have h0 : firstContOk b 0 = true := h.1.1.1
            rw [firstContOk_zero b] at h0
            cases h0
        | [c1] =>
            simp only [Bool.and_eq_true, getD_cons_zero, getD_cons_succ] at h
            exact absurd h.1.1.2 (by decide)
        | [c1, c2] =>
            simp only [Bool.and_eq_true, getD_cons_zero, getD_cons_succ] at h
            exact absurd h.1.2 (by decide)
        | c1 :: c2 :: c3 :: r =>
            simp only [Bool.and_eq_true, getD_cons_zero, getD_cons_succ,
              List.drop_succ_cons, List.drop_zero] at h
            obtain ⟨⟨⟨hc1, hc2⟩, hc3⟩, hr⟩ := h
            refine ⟨[c1, c2, c3], r, rfl, ?_, hr, ?_⟩
            · intro c hc
              simp only [List.mem_cons, List.mem_singleton] at hc
              rcases hc with rfl | rfl | rfl | hfalse
              · exact firstContOk_ge b c hc1
              · exact isCont_ge c hc2
              · exact isCont_ge c hc3
              · cases hfalse
            · intro X
              rw [List.cons_append, List.cons_append, List.singleton_append,
                validUtf8, if_neg h1, if_neg h2, if_neg h3, if_pos h4]
              simp [hc1, hc2, hc3]
      · rw [if_neg h4] at h
        cases h

theorem takeWhile_append_of_all (P : Nat → Bool) (cs r : List Nat)
    (h : ∀ c ∈ cs, P c = true) :
    (cs ++ r).takeWhile P = cs ++ r.takeWhile P := by
  induction cs with
  | nil => rfl
  | cons c t ih =>
      rw [List.cons_append, List.takeWhile_cons, if_pos (h c (by simp))]
      rw [ih (fun x hx => h x (by simp [hx])), List.cons_append]

theorem dropWhile_append_of_all (P : Nat → Bool) (cs r : List Nat)
    (h : ∀ c ∈ cs, P c = true) :
    (cs ++ r).dropWhile P = r.dropWhile P := by
  induction cs with
  | nil => rfl
  | cons c t ih =>
      rw [List.cons_append, List.dropWhile_cons, if_pos (h c (by simp))]
      exact ih (fun x hx => h x (by simp [hx]))

/-- Splitting a valid UTF-8 list at the first occurrence of an ASCII
byte `a`: the prefix before it is valid, and the remainder after it is
valid. -/
theorem validUtf8_split (a : Nat) (ha : a < 128) :
    ∀ n (s : List Nat), s.length ≤ n → validUtf8 s = true →
      validUtf8 (s.takeWhile (fun b => !(b == a))) = true ∧
      (∀ r, s.dropWhile (fun b => !(b == a)) = a :: r →
        validUtf8 r = true) := by
  intro n
  induction n with
  | zero =>
      intro s hlen hv
      have : s = [] := List.length_eq_zero.mp (Nat.le_zero.mp hlen)
      subst this
      exact ⟨by rw [List.takeWhile_nil, validUtf8],
        fun r hr => by simp at hr⟩
  | succ n ih =>
      intro s hlen hv
      match s with
      | [] =>
          exact ⟨by rw [List.takeWhile_nil, validUtf8],
            fun r hr => by simp at hr⟩
      | b :: l =>
          by_cases hb : b < 128
          · have hvl : validUtf8 l = true :=
              (validUtf8_ascii_cons b l hb) ▸ hv
            by_cases hba : b = a
            · subst hba
              constructor
              · rw [List.takeWhile_cons, if_neg (by simp), validUtf8]
              · intro r hr
                rw [List.dropWhile_cons, if_neg (by simp)] at hr
                cases hr
                exact hvl
            · have hpred : (!(b == a)) = true := by simp [hba]
              have hlen2 : l.length ≤ n := by
                simp only [List.length_cons] at hlen; omega
              obtain ⟨ih1, ih2⟩ := ih l hlen2 hvl
              constructor
              · rw [List.takeWhile_cons, if_pos hpred]
                rw [validUtf8_ascii_cons _ _ hb]
                exact ih1
              · intro r hr
                rw [List.dropWhile_cons, if_pos hpred] at hr
                exact ih2 r hr
          · have hb128 : 128 ≤ b := by omega
            obtain ⟨cs, r0, hl, hcs, hr0, hpre⟩ :=
              validUtf8_decomp b l hv hb128
            have hcspred : ∀ c ∈ cs, (!(c == a)) = true := by
              intro c hc
              have := hcs c hc
              simp
              omega
            have hbpred : (!(b == a)) = true := by simp; omega
            have hlenr : r0.length ≤ n := by
              subst hl
              simp only [List.length_cons, List.length_append] at hlen
              omega
            obtain ⟨ih1, ih2⟩ := ih r0 hlenr hr0
            constructor
            · rw [List.takeWhile_cons, if_pos hbpred]
              subst hl
              rw [takeWhile_append_of_all _ cs _ hcspred]
              rw [hpre]
              exact ih1
            · intro r hr
              rw [List.dropWhile_cons, if_pos hbpred] at hr
              subst hl
              rw [dropWhile_append_of_all _ cs _ hcspred] at hr
              exact ih2 r hr

/-!
Parser-state invariants: well-formedness and validity of the
unconsumed stream, leading to the unreachability of the UTF-8 error.
-/

theorem alpha_lt_128 (b : Nat) (h : isAsciiAlphabetic b = true) : b < 128 := by
  simp only [isAsciiAlphabetic, decide_eq_true_eq] at h
  omega

theorem wfP_new (s : List Nat) : (Parser.new s).wfP := by
  cases s with
  | nil => intro _; rfl
  | cons a t =>
      intro h
      simp [Parser.new, List.enum_cons] at h

theorem wfP_next (p : Parser) : p.next.wfP := by
  intro h
  cases hb : p.buffer with
  | nil => simp [Parser.next, hb]
  | cons x t => simp [Parser.next, hb] at h

theorem stream_next (p : Parser) (b : Nat) (h : p.byte = some b) :
    p.stream = b :: p.next.stream := by
  cases hb : p.buffer with
  | nil => simp [Parser.stream, Parser.bytes, Parser.next, h, hb]
  | cons x t => simp [Parser.stream, Parser.bytes, Parser.next, h, hb]

theorem stream_nil_of_none (p : Parser) (hw : p.wfP) (h : p.byte = none) :
    p.stream = [] := by
  simp [Parser.stream, Parser.bytes, h, hw h]

theorem stream_new (s : List Nat) : (Parser.new s).stream = s := by
  cases s with
  | nil => rfl
  | cons a t =>
      simp [Parser.stream, Parser.bytes, Parser.new, List.enum_cons,
        List.enumFrom_map_snd]

theorem read_ident_loop_spec :
    ∀ (p : Parser) (acc : List Nat), p.wfP →
      (read_ident_loop p acc).2 =
        acc ++ p.stream.takeWhile isAsciiAlphabetic ∧
      (read_ident_loop p acc).1.stream =
        p.stream.dropWhile isAsciiAlphabetic ∧
      (read_ident_loop p acc).1.wfP := by
  intro p acc
  induction p, acc using read_ident_loop.induct with
  | case1 p acc h =>
      intro hw
      rw [read_ident_loop, h]
      rw [stream_nil_of_none p hw h]
      exact ⟨by simp, by simp, hw⟩
  | case2 p acc b h hb ih =>
      intro hw
      rw [read_ident_loop, h]
      simp only [hb, if_true]
      obtain ⟨ih1, ih2, ih3⟩ := ih (wfP_next p)
      rw [stream_next p b h]
      refine ⟨?_, ?_, ih3⟩
      · rw [List.takeWhile_cons, if_pos hb, ih1]
        simp
      · rw [List.dropWhile_cons, if_pos hb, ih2]
  | case3 p acc b h hb =>
      intro hw
      rw [read_ident_loop, h]
      simp only [hb, if_false]
      rw [stream_next p b h]
      have hbf : isAsciiAlphabetic b = false := by
        revert hb; cases isAsciiAlphabetic b <;> simp
      refine ⟨?_, ?_, hw⟩
      · rw [List.takeWhile_cons, hbf]
        simp
      · rw [List.dropWhile_cons, hbf]
        simp [stream_next p b h]

theorem read_string_loop_spec :
    ∀ (p : Parser) (acc : List Nat), p.wfP →
      (read_string_loop p acc).2 =
        acc ++ p.stream.takeWhile (fun b => !(b == 39)) ∧
      (read_string_loop p acc).1.stream =
        p.stream.dropWhile (fun b => !(b == 39)) ∧
      (read_string_loop p acc).1.wfP := by
  intro p acc
  induction p, acc using read_string_loop.induct with
  | case1 p acc h =>
      intro hw
      rw [read_string_loop, h]
      rw [stream_nil_of_none p hw h]
      exact ⟨by simp, by simp, hw⟩
  | case2 p acc h =>
      intro hw
      have hstep : read_string_loop p acc = (p, acc) := by
        rw [read_string_loop, h]; simp
      rw [hstep, stream_next p 39 h]
      refine ⟨?_, ?_, hw⟩
      · rw [List.takeWhile_cons, if_neg (by simp)]
        simp
      · rw [List.dropWhile_cons, if_neg (by simp)]
  | case3 p acc b h hb ih =>
      intro hw
      rw [read_string_loop, h]
      simp only [hb, if_false]
      obtain ⟨ih1, ih2, ih3⟩ := ih (wfP_next p)
      rw [stream_next p b h]
      refine ⟨?_, ?_, ih3⟩
      · rw [List.takeWhile_cons, if_pos (by simp [hb]), ih1]
        simp
      · rw [List.dropWhile_cons, if_pos (by simp [hb]), ih2]

theorem read_ident_loop_acc_ascii :
    ∀ (p : Parser) (acc : List Nat), (∀ b, b ∈ acc → b < 128) →
      ∀ b, b ∈ (read_ident_loop p acc).2 → b < 128 := by
  intro p acc
  induction p, acc using read_ident_loop.induct with
  | case1 p acc h =>
      intro hacc b hb
      rw [read_ident_loop, h] at hb
      exact hacc b hb
  | case2 p acc b h hb ih =>
      intro hacc c hc
      rw [read_ident_loop, h] at hc
      simp only [hb, if_true] at hc
      refine ih ?_ c hc
      intro x hx
      rcases List.mem_append.mp hx with hx | hx
      · exact hacc x hx
      · simp only [List.mem_singleton] at hx
        subst hx
        exact alpha_lt_128 _ hb
  | case3 p acc b h hb =>
      intro hacc c hc
      rw [read_ident_loop, h] at hc
      simp only [hb, if_false] at hc
      exact hacc c hc

theorem read_ident_no_utf8 (p : Parser) : read_ident p ≠ .error .Utf8 := by
  intro hcontra
  have hval : validUtf8 (read_ident_loop p []).2 = true :=
    validUtf8_of_all_ascii _
      (read_ident_loop_acc_ascii p [] (by intro b hb; cases hb))
  simp [read_ident, from_utf8, hval] at hcontra
  split_ifs at hcontra

theorem read_ident_result (p : Parser) (hw : p.wfP) (t : Token) (q : Parser)
    (h : read_ident p = .ok (t, q)) (hv : validUtf8 p.stream = true) :
    q.wfP ∧ validUtf8 q.stream = true := by
  have hq := read_ident_state p t q h
  obtain ⟨_, h2, h3⟩ := read_ident_loop_spec p [] hw
  rw [hq]
  refine ⟨h3, ?_⟩
  rw [h2]
  exact validUtf8_dropWhile_ascii isAsciiAlphabetic alpha_lt_128 p.stream hv

theorem read_string_no_utf8 (p : Parser) (hw : p.wfP)
    (hv : validUtf8 p.stream = true) : read_string p ≠ .error .Utf8 := by
  intro hcontra
  obtain ⟨h1, h2, h3⟩ := read_string_loop_spec p [] hw
  have hval : validUtf8 (read_string_loop p []).2 = true := by
    rw [h1, List.nil_append]
    exact (validUtf8_split 39 (by omega) p.stream.length p.stream
      le_rfl hv).1
  simp [read_string, from_utf8, hval] at hcontra
  split_ifs at hcontra <;> simp at hcontra

theorem read_string_result (p : Parser) (hw : p.wfP)
    (hv : validUtf8 p.stream = true) (t : Token) (q : Parser)
    (h : read_string p = .ok (t, q)) :
    q.wfP ∧ validUtf8 q.stream = true := by
  obtain ⟨h1, h2, h3⟩ := read_string_loop_spec p [] hw
  by_cases hq : (read_string_loop p []).1.byte = some 39
  · rcases hu : from_utf8 (read_string_loop p []).2 with e | s
    · exfalso
      simp [read_string, hq, hu] at h
    · simp [read_string, hq, hu] at h
      obtain ⟨ht, hqq⟩ := h
      refine ⟨?_, ?_⟩
      · rw [← hqq]
        exact wfP_next _
      · rw [← hqq]
        have hs : (read_string_loop p []).1.stream =
            39 :: (read_string_loop p []).1.next.stream :=
          stream_next _ 39 hq
        rw [h2] at hs
        exact (validUtf8_split 39 (by omega) p.stream.length p.stream
          le_rfl hv).2 _ hs
  · exfalso
    simp [read_string, hq] at h

theorem findNewline_some_spec :
    ∀ (bl : List (Nat × Nat)) (n c : Nat) (r : List (Nat × Nat)),
      findNewline bl = some (n, c, r) →
      c = 10 ∧
      (bl.map (fun x => x.2)).dropWhile (fun b => !(b == 10)) =
        10 :: r.map (fun x => x.2) := by
  intro bl
  induction bl with
  | nil => intro n c r h; cases h
  | cons x t ih =>
      obtain ⟨m, ch⟩ := x
      intro n c r h
      rw [findNewline] at h
      by_cases hx : ch = 10
      · rw [if_pos hx] at h
        cases h
        refine ⟨hx, ?_⟩
        subst hx
        simp only [List.map_cons, List.dropWhile_cons]
        rw [if_neg (by simp)]
      · rw [if_neg hx] at h
        obtain ⟨hc, hd⟩ := ih n c r h
        refine ⟨hc, ?_⟩
        simp only [List.map_cons, List.dropWhile_cons]
        rw [if_pos (by simp [hx])]
        exact hd

theorem skip_inv (p : Parser) (hw : p.wfP) (hv : validUtf8 p.stream = true) :
    p.skip_to_next_line.wfP ∧
      validUtf8 p.skip_to_next_line.stream = true := by
  unfold Parser.skip_to_next_line
  rcases hf : findNewline p.buffer with _ | ⟨n, c, r⟩
  · refine ⟨fun _ => rfl, ?_⟩
    simp only [Parser.stream, Parser.bytes, List.map_nil, List.append_nil]
    rw [validUtf8]
  · obtain ⟨hc, hdrop⟩ := findNewline_some_spec p.buffer n c r hf
    subst hc
    refine ⟨fun hcontra => by simp at hcontra, ?_⟩
    have hstream : Parser.stream ⟨r, n + 1, some 10⟩ =
        10 :: r.map (fun x => x.2) := by
      simp [Parser.stream, Parser.bytes]
    simp only [hstream]
    rw [validUtf8_ascii_cons _ _ (by omega)]
    rcases hb : p.byte with _ | cb
    · rw [hw hb] at hf
      simp [findNewline] at hf
    · have hsp : p.stream = cb :: p.bytes := by
        simp [Parser.stream, hb]
      by_cases hcb : cb < 128
      · have hvb : validUtf8 p.bytes = true := by
          rw [hsp, validUtf8_ascii_cons _ _ hcb] at hv
          exact hv
        exact (validUtf8_split 10 (by omega) p.bytes.length p.bytes
          le_rfl hvb).2 _ hdrop
      · rw [hsp] at hv
        obtain ⟨cs, r0, hbb, hcs, hr0, _⟩ :=
          validUtf8_decomp cb p.bytes hv (by omega)
        have hskip : ∀ c, c ∈ cs → (fun b => !(b == 10)) c = true := by
          intro c hc
          have := hcs c hc
          simp
          omega
        rw [show p.bytes = (p.buffer.map (fun x => x.2)) from rfl] at hbb
        rw [hbb, dropWhile_append_of_all _ cs _ hskip] at hdrop
        exact (validUtf8_split 10 (by omega) r0.length r0
          le_rfl hr0).2 _ hdrop

theorem next_token_inv :
    ∀ p : Parser, p.wfP → validUtf8 p.stream = true →
      next_token p ≠ .error .Utf8 ∧
      (∀ t q, next_token p = .ok (t, q) →
        q.wfP ∧ (t ≠ Token.Illegal → validUtf8 q.stream = true)) := by
  intro p
  induction p using next_token.induct with
  | case1 p hn =>
      intro hw hv
      have hnt : next_token p = .error .EOF := by rw [next_token, hn]
      rw [hnt]
      exact ⟨by simp, by intro t q h; cases h⟩
  | case2 p b hb ha =>
      intro hw hv
      have hnt : next_token p = read_ident p := by
        rw [next_token, hb]; simp [ha]
      rw [hnt]
      refine ⟨read_ident_no_utf8 p, ?_⟩
      intro t q h
      obtain ⟨hqwf, hqv⟩ := read_ident_result p hw t q h hv
      exact ⟨hqwf, fun _ => hqv⟩
  | case3 p b hb ha p1 hws ih =>
      intro hw hv
      have hnt : next_token p = next_token p.next := by
        rw [next_token, hb]; simp [ha, hws]
      rw [hnt]
      have hblt : b < 128 := by rcases hws with rfl | rfl <;> omega
      have hvn : validUtf8 p.next.stream = true := by
        rw [stream_next p b hb, validUtf8_ascii_cons _ _ hblt] at hv
        exact hv
      exact ih (wfP_next p) hvn
  | case4 p hb ha hws =>
      intro hw hv
      have hnt : next_token p = read_string p.next := by
        rw [next_token, hb]; norm_num [isAsciiAlphabetic]
      rw [hnt]
      have hvn : validUtf8 p.next.stream = true := by
        rw [stream_next p 39 hb, validUtf8_ascii_cons _ _ (by omega)] at hv
        exact hv
      refine ⟨read_string_no_utf8 p.next (wfP_next p) hvn, ?_⟩
      intro t q h
      obtain ⟨hqwf, hqv⟩ := read_string_result p.next (wfP_next p) hvn t q h
      exact ⟨hqwf, fun _ => hqv⟩
  | case5 p hb ha hws hq =>
      intro hw hv
      have hnt : next_token p = .ok (Token.Hash, p.next) := by
        rw [next_token, hb]; norm_num [isAsciiAlphabetic]
      rw [hnt]
      refine ⟨by simp, ?_⟩
      intro t q h
      cases h
      refine ⟨wfP_next p, fun _ => ?_⟩
      rw [stream_next p 35 hb, validUtf8_ascii_cons _ _ (by omega)] at hv
      exact hv
  | case6 p hb ha hws hq hh =>
      intro hw hv
      have hnt : next_token p = .ok (Token.Comma, p.next) := by
        rw [next_token, hb]; norm_num [isAsciiAlphabetic]
      rw [hnt]
      refine ⟨by simp, ?_⟩
      intro t q h
      cases h
      refine ⟨wfP_next p, fun _ => ?_⟩
      rw [stream_next p 44 hb, validUtf8_ascii_cons _ _ (by omega)] at hv
      exact hv
  | case7 p hb ha hws hq hh hc =>
      intro hw hv
      have hnt : next_token p = .ok (Token.Colon, p.next) := by
        rw [next_token, hb]; norm_num [isAsciiAlphabetic]
      rw [hnt]
      refine ⟨by simp, ?_⟩
      intro t q h
      cases h
      refine ⟨wfP_next p, fun _ => ?_⟩
      rw [stream_next p 58 hb, validUtf8_ascii_cons _ _ (by omega)] at hv
      exact hv
  | case8 p b hb ha hws hq hh hc hco =>
      intro hw hv
      have hnt : next_token p = .ok (Token.Illegal, p.next) := by
        rw [next_token, hb]; simp [ha, hws, hq, hh, hc, hco]
      rw [hnt]
      refine ⟨by simp, ?_⟩
      intro t q h
      cases h
      exact ⟨wfP_next p, fun hne => absurd rfl hne⟩

theorem parse_str_inv (p : Parser) (hw : p.wfP)
    (hv : validUtf8 p.stream = true) :
    (∀ e, parse_str p = .error e → e ≠ .Utf8) ∧
    (∀ s q, parse_str p = .ok (s, q) →
      q.wfP ∧ validUtf8 q.stream = true) := by
  obtain ⟨hne, hok⟩ := next_token_inv p hw hv
  rcases hn : next_token p with e | ⟨t, p1⟩
  · have he : e ≠ .Utf8 := fun hcontra => hne (by rw [hn, hcontra])
    have hps : parse_str p = .error e := by
      unfold parse_str; rw [hn]
    rw [hps]
    exact ⟨by intro e2 h2; cases h2; exact he, by intro s q h2; cases h2⟩
  · obtain ⟨h1wf, h1v⟩ := hok t p1 hn
    cases t with
    | Str s =>
        have hps : parse_str p = .ok (s, p1) := by
          unfold parse_str; rw [hn]
        rw [hps]
        constructor
        · intro e2 h2; cases h2
        · intro s2 q h2
          cases h2
          exact ⟨h1wf, h1v (by simp)⟩
    | Illegal =>
        have hps : parse_str p = .error .TypeMismatch := by
          unfold parse_str; rw [hn]
        rw [hps]
        exact ⟨by intro e2 h2; cases h2; simp, by intro s q h2; cases h2⟩
    | Hash =>
        have hps : parse_str p = .error .TypeMismatch := by
          unfold parse_str; rw [hn]
        rw [hps]
        exact ⟨by intro e2 h2; cases h2; simp, by intro s q h2; cases h2⟩
    | Ident s =>
        have hps : parse_str p = .error .TypeMismatch := by
          unfold parse_str; rw [hn]
        rw [hps]
        exact ⟨by intro e2 h2; cases h2; simp, by intro s2 q h2; cases h2⟩
    | Comma =>
        have hps : parse_str p = .error .TypeMismatch := by
          unfold parse_str; rw [hn]
        rw [hps]
        exact ⟨by intro e2 h2; cases h2; simp, by intro s q h2; cases h2⟩
    | Colon =>
        have hps : parse_str p = .error .TypeMismatch := by
          unfold parse_str; rw [hn]
        rw [hps]
        exact ⟨by intro e2 h2; cases h2; simp, by intro s q h2; cases h2⟩
    | Flavor =>
        have hps : parse_str p = .error .TypeMismatch := by
          unfold parse_str; rw [hn]
        rw [hps]
        exact ⟨by intro e2 h2; cases h2; simp, by intro s q h2; cases h2⟩
    | Group =>
        have hps : parse_str p = .error .TypeMismatch := by
          unfold parse_str; rw [hn]
        rw [hps]
        exact ⟨by intro e2 h2; cases h2; simp, by intro s q h2; cases h2⟩
    | Branch =>
        have hps : parse_str p = .error .TypeMismatch := by
          unfold parse_str; rw [hn]
        rw [hps]
        exact ⟨by intro e2 h2; cases h2; simp, by intro s q h2; cases h2⟩

theorem parse_colon_inv (p : Parser) (hw : p.wfP)
    (hv : validUtf8 p.stream = true) :
    (∀ e, parse_colon p = .error e → e ≠ .Utf8) ∧
    (∀ q, parse_colon p = .ok q → q.wfP ∧ validUtf8 q.stream = true) := by
  obtain ⟨hne, hok⟩ := next_token_inv p hw hv
  rcases hn : next_token p with e | ⟨t, p1⟩
  · have he : e ≠ .Utf8 := fun hcontra => hne (by rw [hn, hcontra])
    have hps : parse_colon p = .error e := by unfold parse_colon; rw [hn]
    rw [hps]
    constructor
    · intro e2 h2; cases h2; exact he
    · intro q h2; cases h2
  · obtain ⟨h1wf, h1v⟩ := hok t p1 hn
    by_cases ht : t = Token.Colon
    · subst ht
      have hps : parse_colon p = .ok p1 := by unfold parse_colon; rw [hn]
      rw [hps]
      constructor
      · intro e2 h2; cases h2
      · intro q h2; cases h2; exact ⟨h1wf, h1v (by simp)⟩
    · have hps : parse_colon p = .error (.Unexpected t .Colon) := by
        unfold parse_colon
        rw [hn]
        cases t <;> first | rfl | exact absurd rfl ht
      rw [hps]
      refine ⟨fun e2 h2 => ?_, fun q h2 => by cases h2⟩
      cases h2
      simp

theorem parse_branch_inv (p : Parser) (hw : p.wfP)
    (hv : validUtf8 p.stream = true) :
    (∀ e, parse_branch p = .error e → e ≠ .Utf8) ∧
    (∀ q, parse_branch p = .ok q → q.wfP ∧ validUtf8 q.stream = true) := by
  obtain ⟨hne, hok⟩ := next_token_inv p hw hv
  rcases hn : next_token p with e | ⟨t, p1⟩
  · have he : e ≠ .Utf8 := fun hcontra => hne (by rw [hn, hcontra])
    have hps : parse_branch p = .error e := by unfold parse_branch; rw [hn]
    rw [hps]
    constructor
    · intro e2 h2; cases h2; exact he
    · intro q h2; cases h2
  · obtain ⟨h1wf, h1v⟩ := hok t p1 hn
    by_cases ht : t = Token.Branch
    · subst ht
      have hps : parse_branch p = .ok p1 := by unfold parse_branch; rw [hn]
      rw [hps]
      constructor
      · intro e2 h2; cases h2
      · intro q h2; cases h2; exact ⟨h1wf, h1v (by simp)⟩
    · have hps : parse_branch p = .error (.Unexpected t .Branch) := by
        unfold parse_branch
        rw [hn]
        cases t <;> first | rfl | exact absurd rfl ht
      rw [hps]
      refine ⟨fun e2 h2 => ?_, fun q h2 => by cases h2⟩
      cases h2
      simp

theorem parse_attrs_inv (p : Parser) (vec : List Flavor) (hw : p.wfP)
    (hv : validUtf8 p.stream = true) :
    (∀ vec1 e, parse_attrs p vec = (vec1, .error e) → e ≠ .Utf8) ∧
    (∀ vec1 q, parse_attrs p vec = (vec1, .ok q) →
      q.wfP ∧ validUtf8 q.stream = true) := by
  obtain ⟨hbe, hbo⟩ := parse_branch_inv p hw hv
  unfold parse_attrs
  rcases hb : parse_branch p with e | p1
  · constructor
    · intro vec1 e2 h2
      cases h2
      exact hbe _ hb
    · intro vec1 q h2; cases h2
  · obtain ⟨h1wf, h1v⟩ := hbo p1 hb
    obtain ⟨hce, hco⟩ := parse_colon_inv p1 h1wf h1v
    rcases hl : vec.getLast? with _ | f
    · constructor
      · intro vec1 e2 h2; cases h2; simp
      · intro vec1 q h2; cases h2
    · simp only
      rcases hc : parse_colon p1 with e | p2
      · constructor
        · intro vec1 e2 h2; cases h2; exact hce _ hc
        · intro vec1 q h2; cases h2
      · obtain ⟨h2wf, h2v⟩ := hco p2 hc
        obtain ⟨hse, hso⟩ := parse_str_inv p2 h2wf h2v
        simp only
        rcases hs : parse_str p2 with e | ⟨s2, p3⟩
        · constructor
          · intro vec1 e2 h2; cases h2; exact hse _ hs
          · intro vec1 q h2; cases h2
        · constructor
          · intro vec1 e2 h2; cases h2
          · intro vec1 q h2
            cases h2
            exact hso s2 _ hs

theorem parse1_no_utf8 :
    ∀ (p : Parser) (vec : List Flavor), p.wfP →
      validUtf8 p.stream = true → (parse1 p vec).2 ≠ .Utf8 := by
  intro p vec
  induction p, vec using parse1.induct with
  | case1 p vec e hn =>
      intro hw hv
      have hp : parse1 p vec = (vec, e) := parse1_eq_err p vec e hn
      rw [hp]
      intro hcontra
      simp only at hcontra
      exact (next_token_inv p hw hv).1 (by rw [hn, hcontra])
  | case2 p vec p1 hn ih =>
      intro hw hv
      have hp : parse1 p vec = parse1 p1.skip_to_next_line vec :=
        parse1_eq_hash p vec p1 hn
      rw [hp]
      obtain ⟨h1wf, h1v⟩ := ((next_token_inv p hw hv).2) _ p1 hn
      obtain ⟨hsw, hsv⟩ := skip_inv p1 h1wf (h1v (by simp))
      exact ih hsw hsv
  | case3 p vec p1 hn e hs =>
      intro hw hv
      have hp : parse1 p vec = (vec, e) := parse1_eq_flavor_err p vec p1 e hn hs
      rw [hp]
      obtain ⟨h1wf, h1v⟩ := ((next_token_inv p hw hv).2) _ p1 hn
      exact (parse_str_inv p1 h1wf (h1v (by simp))).1 e hs
  | case4 p vec p1 hn s p2 hs ih =>
      intro hw hv
      have hp : parse1 p vec =
          parse1 p2 (vec ++ [{ repo := s, branch := ascii "master" }]) :=
        parse1_eq_flavor_ok p vec p1 s p2 hn hs
      rw [hp]
      obtain ⟨h1wf, h1v⟩ := ((next_token_inv p hw hv).2) _ p1 hn
      obtain ⟨h2wf, h2v⟩ := (parse_str_inv p1 h1wf (h1v (by simp))).2 s p2 hs
      exact ih h2wf h2v
  | case5 p vec p1 hn vec1 e ha =>
      intro hw hv
      have hp : parse1 p vec = (vec1, e) := parse1_eq_comma_err p vec vec1 p1 e hn ha
      rw [hp]
      obtain ⟨h1wf, h1v⟩ := ((next_token_inv p hw hv).2) _ p1 hn
      exact (parse_attrs_inv p1 vec h1wf (h1v (by simp))).1 vec1 e ha
  | case6 p vec p1 hn vec1 p2 ha ih =>
      intro hw hv
      have hp : parse1 p vec = parse1 p2 vec1 :=
        parse1_eq_comma_ok p vec vec1 p1 p2 hn ha
      rw [hp]
      obtain ⟨h1wf, h1v⟩ := ((next_token_inv p hw hv).2) _ p1 hn
      obtain ⟨h2wf, h2v⟩ := (parse_attrs_inv p1 vec h1wf (h1v (by simp))).2
        vec1 p2 ha
      exact ih h2wf h2v
  | case7 p vec t p1 hnh hnf hnc hn =>
      intro hw hv
      have hp : parse1 p vec = (vec, .Unexpected t Token.Flavor) :=
        parse1_eq_other p vec t p1 hn (fun h => hnh h) (fun h => hnf h)
          (fun h => hnc h)
      rw [hp]
      simp

theorem parse_no_utf8 (p : Parser) (hw : p.wfP)
    (hv : validUtf8 p.stream = true) : parse p ≠ .error .Utf8 := by
  intro hcontra
  rcases hr : parse1 p [] with ⟨vec, e⟩
  have h2 : e ≠ .Utf8 := by
    have h3 := parse1_no_utf8 p [] hw hv
    rw [hr] at h3
    exact h3
  by_cases he : e.is_eof_error
  · simp [parse, hr, he] at hcontra
  · simp [parse, hr, he] at hcontra
    exact h2 hcontra

/-!
Observational equivalence of parser states: equal cached byte and
equal buffer byte values (offsets and enumeration indices may differ).
Every parsing outcome (tokens, entries, errors) is invariant under it;
only the offset bookkeeping differs.
-/

def obsEq (p q : Parser) : Prop := p.byte = q.byte ∧ p.bytes = q.bytes

def obsEqTP :
    Except ParseError (Token × Parser) → Except ParseError (Token × Parser) →
      Prop
  | .error e, .error e2 => e = e2
  | .ok (t, p), .ok (t2, q) => t = t2 ∧ obsEq p q
  | _, _ => False

def obsEqSP :
    Except ParseError (List Nat × Parser) →
      Except ParseError (List Nat × Parser) → Prop
  | .error e, .error e2 => e = e2
  | .ok (s, p), .ok (s2, q) => s = s2 ∧ obsEq p q
  | _, _ => False

def obsEqP : Except ParseError Parser → Except ParseError Parser → Prop
  | .error e, .error e2 => e = e2
  | .ok p, .ok q => obsEq p q
  | _, _ => False

theorem obsEq_next (p q : Parser) (h : obsEq p q) : obsEq p.next q.next := by
  obtain ⟨h1, h2⟩ := h
  have hm : p.buffer.map (fun x => x.2) = q.buffer.map (fun x => x.2) := h2
  cases hp : p.buffer with
  | nil =>
      cases hq : q.buffer with
      | nil => constructor <;> simp [Parser.next, Parser.bytes, hp, hq]
      | cons y t2 => rw [hp, hq] at hm; cases hm
  | cons x t =>
      cases hq : q.buffer with
      | nil => rw [hp, hq] at hm; cases hm
      | cons y t2 =>
          rw [hp, hq] at hm
          simp only [List.map_cons, List.cons.injEq] at hm
          constructor
          · simp [Parser.next, hp, hq, hm.1]
          · simp [Parser.next, Parser.bytes, hp, hq, hm.2]

theorem read_ident_loop_obs :
    ∀ (p : Parser) (acc : List Nat) (q : Parser), obsEq p q →
      (read_ident_loop p acc).2 = (read_ident_loop q acc).2 ∧
      obsEq (read_ident_loop p acc).1 (read_ident_loop q acc).1 := by
  intro p acc
  induction p, acc using read_ident_loop.induct with
  | case1 p acc h =>
      intro q hobs
      have hq : q.byte = none := hobs.1 ▸ h
      have hsp : read_ident_loop p acc = (p, acc) := by
        rw [read_ident_loop, h]
      have hsq : read_ident_loop q acc = (q, acc) := by
        rw [read_ident_loop, hq]
      rw [hsp, hsq]
      exact ⟨rfl, hobs⟩
  | case2 p acc b h hb ih =>
      intro q hobs
      have hq : q.byte = some b := hobs.1 ▸ h
      have hsp : read_ident_loop p acc = read_ident_loop p.next (acc ++ [b]) := by
        rw [read_ident_loop, h]; simp [hb]
      have hsq : read_ident_loop q acc = read_ident_loop q.next (acc ++ [b]) := by
        rw [read_ident_loop, hq]; simp [hb]
      rw [hsp, hsq]
      exact ih q.next (obsEq_next p q hobs)
  | case3 p acc b h hb =>
      intro q hobs
      have hq : q.byte = some b := hobs.1 ▸ h
      have hsp : read_ident_loop p acc = (p, acc) := by
        rw [read_ident_loop, h]; simp [hb]
      have hsq : read_ident_loop q acc = (q, acc) := by
        rw [read_ident_loop, hq]; simp [hb]
      rw [hsp, hsq]
      exact ⟨rfl, hobs⟩

theorem read_string_loop_obs :
    ∀ (p : Parser) (acc : List Nat) (q : Parser), obsEq p q →
      (read_string_loop p acc).2 = (read_string_loop q acc).2 ∧
      obsEq (read_string_loop p acc).1 (read_string_loop q acc).1 := by
  intro p acc
  induction p, acc using read_string_loop.induct with
  | case1 p acc h =>
      intro q hobs
      have hq : q.byte = none := hobs.1 ▸ h
      have hsp : read_string_loop p acc = (p, acc) := by
        rw [read_string_loop, h]
      have hsq : read_string_loop q acc = (q, acc) := by
        rw [read_string_loop, hq]
      rw [hsp, hsq]
      exact ⟨rfl, hobs⟩
  | case2 p acc h =>
      intro q hobs
      have hq : q.byte = some 39 := hobs.1 ▸ h
      have hsp : read_string_loop p acc = (p, acc) := by
        rw [read_string_loop, h]; simp
      have hsq : read_string_loop q acc = (q, acc) := by
        rw [read_string_loop, hq]; simp
      rw [hsp, hsq]
      exact ⟨rfl, hobs⟩
  | case3 p acc b h hb ih =>
      intro q hobs
      have hq : q.byte = some b := hobs.1 ▸ h
      have hsp : read_string_loop p acc = read_string_loop p.next (acc ++ [b]) := by
        rw [read_string_loop, h]; simp [hb]
      have hsq : read_string_loop q acc = read_string_loop q.next (acc ++ [b]) := by
        rw [read_string_loop, hq]; simp [hb]
      rw [hsp, hsq]
      exact ih q.next (obsEq_next p q hobs)

theorem read_ident_obs (p q : Parser) (h : obsEq p q) :
    obsEqTP (read_ident p) (read_ident q) := by
  obtain ⟨hv, hp⟩ := read_ident_loop_obs p [] q h
  simp only [read_ident]
  rw [hv]
  rcases hu : from_utf8 (read_ident_loop q []).2 with e | s
  · exact rfl
  · dsimp only
    split_ifs <;> exact ⟨rfl, hp⟩

theorem read_string_obs (p q : Parser) (h : obsEq p q) :
    obsEqTP (read_string p) (read_string q) := by
  obtain ⟨hv, hp⟩ := read_string_loop_obs p [] q h
  simp only [read_string]
  rw [hv, hp.1]
  by_cases hq : (read_string_loop q []).1.byte = some 39
  · rw [if_neg (by simp [hq]), if_neg (by simp [hq])]
    rcases hu : from_utf8 (read_string_loop q []).2 with e | s
    · exact rfl
    · exact ⟨rfl, obsEq_next _ _ hp⟩
  · rw [if_pos (by simp [hq]), if_pos (by simp [hq])]
    exact rfl

theorem next_token_obs :
    ∀ (p q : Parser), obsEq p q → obsEqTP (next_token p) (next_token q) := by
  intro p
  induction p using next_token.induct with
  | case1 p hn =>
      intro q hobs
      have hq : q.byte = none := hobs.1 ▸ hn
      rw [show next_token p = .error .EOF from by rw [next_token, hn],
          show next_token q = .error .EOF from by rw [next_token, hq]]
      exact rfl
  | case2 p b hb ha =>
      intro q hobs
      have hq : q.byte = some b := hobs.1 ▸ hb
      rw [show next_token p = read_ident p from by rw [next_token, hb]; simp [ha],
          show next_token q = read_ident q from by rw [next_token, hq]; simp [ha]]
      exact read_ident_obs p q hobs
  | case3 p b hb ha p1 hws ih =>
      intro q hobs
      have hq : q.byte = some b := hobs.1 ▸ hb
      rw [show next_token p = next_token p.next from by
            rw [next_token, hb]; simp [ha, hws],
          show next_token q = next_token q.next from by
            rw [next_token, hq]; simp [ha, hws]]
      exact ih q.next (obsEq_next p q hobs)
  | case4 p hb ha hws =>
      intro q hobs
      have hq : q.byte = some 39 := hobs.1 ▸ hb
      rw [show next_token p = read_string p.next from by
            rw [next_token, hb]; norm_num [isAsciiAlphabetic],
          show next_token q = read_string q.next from by
            rw [next_token, hq]; norm_num [isAsciiAlphabetic]]
      exact read_string_obs p.next q.next (obsEq_next p q hobs)
  | case5 p hb ha hws hq2 =>
      intro q hobs
      have hq : q.byte = some 35 := hobs.1 ▸ hb
      rw [show next_token p = .ok (Token.Hash, p.next) from by
            rw [next_token, hb]; norm_num [isAsciiAlphabetic],
          show next_token q = .ok (Token.Hash, q.next) from by
            rw [next_token, hq]; norm_num [isAsciiAlphabetic]]
      exact ⟨rfl, obsEq_next p q hobs⟩
  | case6 p hb ha hws hq2 hh =>
      intro q hobs
      have hq : q.byte = some 44 := hobs.1 ▸ hb
      rw [show next_token p = .ok (Token.Comma, p.next) from by
            rw [next_token, hb]; norm_num [isAsciiAlphabetic],
          show next_token q = .ok (Token.Comma, q.next) from by
            rw [next_token, hq]; norm_num [isAsciiAlphabetic]]
      exact ⟨rfl, obsEq_next p q hobs⟩
  | case7 p hb ha hws hq2 hh hc =>
      intro q hobs
      have hq : q.byte = some 58 := hobs.1 ▸ hb
      rw [show next_token p = .ok (Token.Colon, p.next) from by
            rw [next_token, hb]; norm_num [isAsciiAlphabetic],
          show next_token q = .ok (Token.Colon, q.next) from by
            rw [next_token, hq]; norm_num [isAsciiAlphabetic]]
      exact ⟨rfl, obsEq_next p q hobs⟩
  | case8 p b hb ha hws hq2 hh hc hco =>
      intro q hobs
      have hq : q.byte = some b := hobs.1 ▸ hb
      rw [show next_token p = .ok (Token.Illegal, p.next) from by
            rw [next_token, hb]; simp [ha, hws, hq2, hh, hc, hco],
          show next_token q = .ok (Token.Illegal, q.next) from by
            rw [next_token, hq]; simp [ha, hws, hq2, hh, hc, hco]]
      exact ⟨rfl, obsEq_next p q hobs⟩

theorem parse_str_obs (p q : Parser) (h : obsEq p q) :
    obsEqSP (parse_str p) (parse_str q) := by
  have hnt := next_token_obs p q h
  unfold parse_str
  rcases hp1 : next_token p with e | ⟨t, p1⟩ <;>
    rcases hq1 : next_token q with e2 | ⟨t2, q1⟩ <;>
    rw [hp1, hq1] at hnt
  · have he : e = e2 := hnt
    subst he
    exact rfl
  · exact hnt.elim
  · exact hnt.elim
  · obtain ⟨ht, hpq⟩ := hnt
    subst ht
    cases t <;> first | exact rfl | exact ⟨rfl, hpq⟩

theorem parse_colon_obs (p q : Parser) (h : obsEq p q) :
    obsEqP (parse_colon p) (parse_colon q) := by
  have hnt := next_token_obs p q h
  unfold parse_colon
  rcases hp1 : next_token p with e | ⟨t, p1⟩ <;>
    rcases hq1 : next_token q with e2 | ⟨t2, q1⟩ <;>
    rw [hp1, hq1] at hnt
  · have he : e = e2 := hnt
    subst he
    exact rfl
  · exact hnt.elim
  · exact hnt.elim
  · obtain ⟨ht, hpq⟩ := hnt
    subst ht
    cases t <;> first | exact rfl | exact hpq

theorem parse_branch_obs (p q : Parser) (h : obsEq p q) :
    obsEqP (parse_branch p) (parse_branch q) := by
  have hnt := next_token_obs p q h
  unfold parse_branch
  rcases hp1 : next_token p with e | ⟨t, p1⟩ <;>
    rcases hq1 : next_token q with e2 | ⟨t2, q1⟩ <;>
    rw [hp1, hq1] at hnt
  · have he : e = e2 := hnt
    subst he
    exact rfl
  · exact hnt.elim
  · exact hnt.elim
  · obtain ⟨ht, hpq⟩ := hnt
    subst ht
    cases t <;> first | exact rfl | exact hpq

theorem parse_attrs_obs (p q : Parser) (vec : List Flavor) (h : obsEq p q) :
    (parse_attrs p vec).1 = (parse_attrs q vec).1 ∧
    obsEqP (parse_attrs p vec).2 (parse_attrs q vec).2 := by
  have hb := parse_branch_obs p q h
  unfold parse_attrs
  rcases hbp : parse_branch p with e | p1 <;>
    rcases hbq : parse_branch q with e2 | q1 <;>
    rw [hbp, hbq] at hb
  · have he : e = e2 := hb
    subst he
    exact ⟨rfl, rfl⟩
  · exact hb.elim
  · exact hb.elim
  · have hcol := parse_colon_obs p1 q1 hb
    dsimp only
    rcases hl : vec.getLast? with _ | f
    · exact ⟨rfl, rfl⟩
    · dsimp only
      rcases hcp : parse_colon p1 with e | p2 <;>
        rcases hcq : parse_colon q1 with e2 | q2 <;>
        rw [hcp, hcq] at hcol
      · have he : e = e2 := hcol
        subst he
        exact ⟨rfl, rfl⟩
      · exact hcol.elim
      · exact hcol.elim
      · have hst := parse_str_obs p2 q2 hcol
        dsimp only
        rcases hsp : parse_str p2 with e | ⟨s, p3⟩ <;>
          rcases hsq : parse_str q2 with e2 | ⟨s2, q3⟩ <;>
          rw [hsp, hsq] at hst
        · have he : e = e2 := hst
          subst he
          exact ⟨rfl, rfl⟩
        · exact hst.elim
        · exact hst.elim
        · obtain ⟨hs, hpq3⟩ := hst
          subst hs
          exact ⟨rfl, hpq3⟩

theorem findNewline_obs :
    ∀ (bl cl : List (Nat × Nat)),
      bl.map (fun x => x.2) = cl.map (fun x => x.2) →
      (findNewline bl = none ∧ findNewline cl = none) ∨
      (∃ n c r m r2, findNewline bl = some (n, c, r) ∧
        findNewline cl = some (m, c, r2) ∧
        r.map (fun x => x.2) = r2.map (fun x => x.2)) := by
  intro bl
  induction bl with
  | nil =>
      intro cl h
      cases cl with
      | nil => exact Or.inl ⟨rfl, rfl⟩
      | cons y t2 => cases h
  | cons x t ih =>
      intro cl h
      cases cl with
      | nil => cases h
      | cons y t2 =>
          obtain ⟨m1, ch⟩ := x
          obtain ⟨m2, ch2⟩ := y
          simp only [List.map_cons, List.cons.injEq] at h
          obtain ⟨hch, ht⟩ := h
          subst hch
          by_cases h10 : ch = 10
          · right
            exact ⟨m1, ch, t, m2, t2,
              by rw [findNewline]; simp [h10],
              by rw [findNewline]; simp [h10],
              ht⟩
          · have hstep1 : findNewline ((m1, ch) :: t) = findNewline t := by
              rw [findNewline]; simp [h10]
            have hstep2 : findNewline ((m2, ch) :: t2) = findNewline t2 := by
              rw [findNewline]; simp [h10]
            rw [hstep1, hstep2]
            exact ih t2 ht

theorem skip_obs (p q : Parser) (h : obsEq p q) :
    obsEq p.skip_to_next_line q.skip_to_next_line := by
  unfold Parser.skip_to_next_line
  rcases findNewline_obs p.buffer q.buffer h.2 with
    ⟨hn1, hn2⟩ | ⟨n, c, r, m, r2, hn1, hn2, hr⟩ <;> rw [hn1, hn2]
  · exact ⟨rfl, rfl⟩
  · exact ⟨rfl, hr⟩

theorem parse1_obs :
    ∀ (p : Parser) (vec : List Flavor) (q : Parser), obsEq p q →
      parse1 p vec = parse1 q vec := by
  intro p vec
  induction p, vec using parse1.induct with
  | case1 p vec e hn =>
      intro q hobs
      have hnt := next_token_obs p q hobs
      rcases hq : next_token q with e2 | ⟨t2, q1⟩ <;> rw [hn, hq] at hnt
      · have he : e = e2 := hnt
        subst he
        rw [parse1_eq_err p vec e hn, parse1_eq_err q vec e hq]
      · exact hnt.elim
  | case2 p vec p1 hn ih =>
      intro q hobs
      have hnt := next_token_obs p q hobs
      rcases hq : next_token q with e2 | ⟨t2, q1⟩ <;> rw [hn, hq] at hnt
      · exact hnt.elim
      · obtain ⟨ht, ho1⟩ := hnt
        subst ht
        rw [parse1_eq_hash p vec p1 hn, parse1_eq_hash q vec q1 hq]
        exact ih q1.skip_to_next_line (skip_obs p1 q1 ho1)
  | case3 p vec p1 hn e hs =>
      intro q hobs
      have hnt := next_token_obs p q hobs
      rcases hq : next_token q with e2 | ⟨t2, q1⟩ <;> rw [hn, hq] at hnt
      · exact hnt.elim
      · obtain ⟨ht, ho1⟩ := hnt
        subst ht
        have hst := parse_str_obs p1 q1 ho1
        rcases hsq : parse_str q1 with e2 | ⟨s2, q2⟩ <;> rw [hs, hsq] at hst
        · have he : e = e2 := hst
          subst he
          rw [parse1_eq_flavor_err p vec p1 e hn hs,
              parse1_eq_flavor_err q vec q1 e hq hsq]
        · exact hst.elim
  | case4 p vec p1 hn s p2 hs ih =>
      intro q hobs
      have hnt := next_token_obs p q hobs
      rcases hq : next_token q with e2 | ⟨t2, q1⟩ <;> rw [hn, hq] at hnt
      · exact hnt.elim
      · obtain ⟨ht, ho1⟩ := hnt
        subst ht
        have hst := parse_str_obs p1 q1 ho1
        rcases hsq : parse_str q1 with e2 | ⟨s2, q2⟩ <;> rw [hs, hsq] at hst
        · exact hst.elim
        · obtain ⟨hseq, ho2⟩ := hst
          subst hseq
          rw [parse1_eq_flavor_ok p vec p1 s p2 hn hs,
              parse1_eq_flavor_ok q vec q1 s q2 hq hsq]
          exact ih q2 ho2
  | case5 p vec p1 hn vec1 e ha =>
      intro q hobs
      have hnt := next_token_obs p q hobs
      rcases hq : next_token q with e2 | ⟨t2, q1⟩ <;> rw [hn, hq] at hnt
      · exact hnt.elim
      · obtain ⟨ht, ho1⟩ := hnt
        subst ht
        obtain ⟨hveq, hat⟩ := parse_attrs_obs p1 q1 vec ho1
        rcases haq : parse_attrs q1 vec with ⟨vecq, e2 | q2⟩ <;>
          rw [ha, haq] at hat hveq
        · have he : e = e2 := hat
          subst he
          have hv1 : vec1 = vecq := hveq
          subst hv1
          rw [parse1_eq_comma_err p vec vec1 p1 e hn ha,
              parse1_eq_comma_err q vec vec1 q1 e hq haq]
        · exact hat.elim
  | case6 p vec p1 hn vec1 p2 ha ih =>
      intro q hobs
      have hnt := next_token_obs p q hobs
      rcases hq : next_token q with e2 | ⟨t2, q1⟩ <;> rw [hn, hq] at hnt
      · exact hnt.elim
      · obtain ⟨ht, ho1⟩ := hnt
        subst ht
        obtain ⟨hveq, hat⟩ := parse_attrs_obs p1 q1 vec ho1
        rcases haq : parse_attrs q1 vec with ⟨vecq, e2 | q2⟩ <;>
          rw [ha, haq] at hat hveq
        · exact hat.elim
        · have hv1 : vec1 = vecq := hveq
          subst hv1
          rw [parse1_eq_comma_ok p vec vec1 p1 p2 hn ha,
              parse1_eq_comma_ok q vec vec1 q1 q2 hq haq]
          exact ih q2 hat
  | case7 p vec t p1 hnh hnf hnc hn =>
      intro q hobs
      have hnt := next_token_obs p q hobs
      rcases hq : next_token q with e2 | ⟨t2, q1⟩ <;> rw [hn, hq] at hnt
      · exact hnt.elim
      · obtain ⟨ht, ho1⟩ := hnt
        subst ht
        rw [parse1_eq_other p vec t p1 hn (fun h2 => hnh h2)
              (fun h2 => hnf h2) (fun h2 => hnc h2),
            parse1_eq_other q vec t q1 hq (fun h2 => hnh h2)
              (fun h2 => hnf h2) (fun h2 => hnc h2)]

theorem parse_obs (p q : Parser) (h : obsEq p q) : parse p = parse q := by
  unfold parse
  rw [parse1_obs p [] q h]

theorem parse1_congr_next_token (p p2 : Parser)
    (h : next_token p = next_token p2) (vec : List Flavor) :
    parse1 p vec = parse1 p2 vec := by
  rcases hn : next_token p2 with e | ⟨t, p1⟩
  · rw [parse1_eq_err p vec e (h.trans hn), parse1_eq_err p2 vec e hn]
  · cases t with
    | Hash =>
        rw [parse1_eq_hash p vec p1 (h.trans hn),
            parse1_eq_hash p2 vec p1 hn]
    | Flavor =>
        rcases hs : parse_str p1 with e2 | ⟨s, pp⟩
        · rw [parse1_eq_flavor_err p vec p1 e2 (h.trans hn) hs,
              parse1_eq_flavor_err p2 vec p1 e2 hn hs]
        · rw [parse1_eq_flavor_ok p vec p1 s pp (h.trans hn) hs,
              parse1_eq_flavor_ok p2 vec p1 s pp hn hs]
    | Comma =>
        rcases ha : parse_attrs p1 vec with ⟨vec1, e2 | pp⟩
        · rw [parse1_eq_comma_err p vec vec1 p1 e2 (h.trans hn) ha,
              parse1_eq_comma_err p2 vec vec1 p1 e2 hn ha]
        · rw [parse1_eq_comma_ok p vec vec1 p1 pp (h.trans hn) ha,
              parse1_eq_comma_ok p2 vec vec1 p1 pp hn ha]
    | Illegal =>
        rw [parse1_eq_other p vec _ p1 (h.trans hn) (by simp) (by simp)
              (by simp),
            parse1_eq_other p2 vec _ p1 hn (by simp) (by simp) (by simp)]
    | Ident s =>
        rw [parse1_eq_other p vec _ p1 (h.trans hn) (by simp) (by simp)
              (by simp),
            parse1_eq_other p2 vec _ p1 hn (by simp) (by simp) (by simp)]
    | Str s =>
        rw [parse1_eq_other p vec _ p1 (h.trans hn) (by simp) (by simp)
              (by simp),
            parse1_eq_other p2 vec _ p1 hn (by simp) (by simp) (by simp)]
    | Colon =>
        rw [parse1_eq_other p vec _ p1 (h.trans hn) (by simp) (by simp)
              (by simp),
            parse1_eq_other p2 vec _ p1 hn (by simp) (by simp) (by simp)]
    | Group =>
        rw [parse1_eq_other p vec _ p1 (h.trans hn) (by simp) (by simp)
              (by simp),
            parse1_eq_other p2 vec _ p1 hn (by simp) (by simp) (by simp)]
    | Branch =>
        rw [parse1_eq_other p vec _ p1 (h.trans hn) (by simp) (by simp)
              (by simp),
            parse1_eq_other p2 vec _ p1 hn (by simp) (by simp) (by simp)]

theorem parse1_ws (p : Parser) (b : Nat) (hb : p.byte = some b)
    (hws : b = 32 ∨ b = 10) (vec : List Flavor) :
    parse1 p vec = parse1 p.next vec := by
  apply parse1_congr_next_token
  rw [next_token, hb]
  rcases hws with rfl | rfl <;> norm_num [isAsciiAlphabetic]

theorem findNewline_enumFrom :
    ∀ (xs : List Nat) (k : Nat) (ys : List Nat), (∀ b, b ∈ xs → b ≠ 10) →
      findNewline (List.enumFrom k (xs ++ 10 :: ys)) =
        some (k + xs.length, 10, List.enumFrom (k + xs.length + 1) ys) := by
  intro xs
  induction xs with
  | nil =>
      intro k ys hxs
      rw [List.nil_append, List.enumFrom_cons, findNewline]
      simp
  | cons x t ih =>
      intro k ys hxs
      rw [List.cons_append, List.enumFrom_cons, findNewline]
      rw [if_neg (by exact hxs x (by simp))]
      rw [ih (k + 1) ys (fun b hb => hxs b (by simp [hb]))]
      have h1 : k + 1 + t.length = k + (x :: t).length := by simp; omega
      rw [h1]

/-- Parsing after a nonempty newline-free comment body continues
exactly as parsing the text after the comment line. -/
theorem parse1_comment (body rest : List Nat) (hne : body ≠ [])
    (h10 : ∀ b, b ∈ body → b ≠ 10) :
    parse1 (Parser.new (35 :: (body ++ 10 :: rest))) [] =
      parse1 (Parser.new rest) [] := by
  rcases hb : body with _ | ⟨b0, body1⟩
  · exact absurd hb hne
  subst hb
  set p0 := Parser.new (35 :: (b0 :: body1 ++ 10 :: rest)) with hp0
  have hp0b : p0.byte = some 35 := by
    simp [hp0, Parser.new, List.enum_cons]
  have hp0buf : p0.buffer = List.enumFrom 1 (b0 :: (body1 ++ 10 :: rest)) := by
    simp [hp0, Parser.new, List.enum_cons]
  have hnt0 : next_token p0 = .ok (Token.Hash, p0.next) := by
    rw [next_token, hp0b]
    norm_num [isAsciiAlphabetic]
  rw [parse1_eq_hash p0 [] p0.next hnt0]
  have hnbuf : p0.next.buffer = List.enumFrom 2 (body1 ++ 10 :: rest) := by
    rw [Parser.next, hp0buf, List.enumFrom_cons]
    simp
  have hfind : findNewline p0.next.buffer =
      some (2 + body1.length, 10,
        List.enumFrom (2 + body1.length + 1) rest) := by
    rw [hnbuf]
    exact findNewline_enumFrom body1 2 rest
      (fun b hbm => h10 b (by simp [hbm]))
  have hskip : p0.next.skip_to_next_line =
      { buffer := List.enumFrom (2 + body1.length + 1) rest
        offset := 2 + body1.length + 1
        byte := some 10 } := by
    unfold Parser.skip_to_next_line
    rw [hfind]
  rw [hskip]
  rw [parse1_ws _ 10 rfl (Or.inr rfl) []]
  apply parse1_obs
  constructor
  · cases rest with
    | nil => simp [Parser.next, Parser.new, List.enumFrom]
    | cons r0 rt =>
        simp [Parser.next, Parser.new, List.enumFrom_cons, List.enum_cons]
  · cases rest with
    | nil => simp [Parser.next, Parser.bytes, Parser.new, List.enumFrom]
    | cons r0 rt =>
        simp [Parser.next, Parser.bytes, Parser.new, List.enumFrom_cons,
          List.enum_cons, List.enumFrom_map_snd]

theorem parseBytes_comment (body rest : List Nat) (hne : body ≠ [])
    (h10 : ∀ b, b ∈ body → b ≠ 10) :
    parseBytes (35 :: (body ++ 10 :: rest)) = parseBytes rest := by
  unfold parseBytes parse
  rw [parse1_comment body rest hne h10]

/-!
Order preservation: parse1 appends entries in textual order; the only
removal is the pop of the most recent entry inside an attribute clause
whose colon or string never arrives.
-/

theorem parse_attrs_err_vec (p : Parser) (vec vec1 : List Flavor)
    (e : ParseError) (h : parse_attrs p vec = (vec1, .error e)) :
    vec1 = vec ∨ vec1 = vec.dropLast := by
  unfold parse_attrs at h
  rcases hb : parse_branch p with e2 | p1 <;> simp only [hb] at h
  · cases h; exact Or.inl rfl
  · rcases hl : vec.getLast? with _ | f <;> simp only [hl] at h
    · cases h; exact Or.inl rfl
    · rcases hc : parse_colon p1 with e2 | p2 <;> simp only [hc] at h
      · cases h; exact Or.inr rfl
      · rcases hs : parse_str p2 with e2 | ⟨s, p3⟩ <;> simp only [hs] at h
        · cases h; exact Or.inr rfl
        · cases h

theorem parse_attrs_ok_vec (p : Parser) (vec vec1 : List Flavor)
    (q : Parser) (h : parse_attrs p vec = (vec1, .ok q)) :
    ∃ f s, vec.getLast? = some f ∧
      vec1 = vec.dropLast ++ [{ f with branch := s }] := by
  unfold parse_attrs at h
  rcases hb : parse_branch p with e2 | p1 <;> simp only [hb] at h
  · cases h
  · rcases hl : vec.getLast? with _ | f <;> simp only [hl] at h
    · cases h
    · rcases hc : parse_colon p1 with e2 | p2 <;> simp only [hc] at h
      · cases h
      · rcases hs : parse_str p2 with e2 | ⟨s, p3⟩ <;> simp only [hs] at h
        · cases h
        · cases h
          exact ⟨f, s, rfl, rfl⟩

theorem map_repo_getLast (vec : List Flavor) (f : Flavor)
    (h : vec.getLast? = some f) :
    vec.map Flavor.repo = vec.dropLast.map Flavor.repo ++ [f.repo] := by
  rcases List.eq_nil_or_concat vec with rfl | ⟨l, b, rfl⟩
  · cases h
  · rw [List.concat_eq_append] at h ⊢
    rw [List.getLast?_concat] at h
    cases h
    rw [List.dropLast_concat]
    simp

theorem parse1_repo_order :
    ∀ (p : Parser) (vec : List Flavor), ∃ tl : List (List Nat),
      ((parse1 p vec).1).map Flavor.repo = vec.map Flavor.repo ++ tl ∨
      ((parse1 p vec).1).map Flavor.repo =
        (vec.dropLast).map Flavor.repo ++ tl := by
  intro p vec
  induction p, vec using parse1.induct with
  | case1 p vec e hn =>
      rw [parse1_eq_err p vec e hn]
      exact ⟨[], Or.inl (by simp)⟩
  | case2 p vec p1 hn ih =>
      rw [parse1_eq_hash p vec p1 hn]
      exact ih
  | case3 p vec p1 hn e hs =>
      rw [parse1_eq_flavor_err p vec p1 e hn hs]
      exact ⟨[], Or.inl (by simp)⟩
  | case4 p vec p1 hn s p2 hs ih =>
      rw [parse1_eq_flavor_ok p vec p1 s p2 hn hs]
      obtain ⟨tl, htl | htl⟩ := ih
      · refine ⟨s :: tl, Or.inl ?_⟩
        rw [htl]
        simp
      · refine ⟨tl, Or.inl ?_⟩
        rw [htl, List.dropLast_concat]
  | case5 p vec p1 hn vec1 e ha =>
      rw [parse1_eq_comma_err p vec vec1 p1 e hn ha]
      rcases parse_attrs_err_vec p1 vec vec1 e ha with rfl | rfl
      · exact ⟨[], Or.inl (by simp)⟩
      · exact ⟨[], Or.inr (by simp)⟩
  | case6 p vec p1 hn vec1 p2 ha ih =>
      rw [parse1_eq_comma_ok p vec vec1 p1 p2 hn ha]
      obtain ⟨f, s, hl, hv1⟩ := parse_attrs_ok_vec p1 vec vec1 p2 ha
      have hmap : vec1.map Flavor.repo = vec.map Flavor.repo := by
        rw [hv1, map_repo_getLast vec f hl]
        simp
      obtain ⟨tl, htl | htl⟩ := ih
      · refine ⟨tl, Or.inl ?_⟩
        rw [htl, hmap]
      · refine ⟨tl, Or.inr ?_⟩
        rw [htl, hv1, List.dropLast_concat]
  | case7 p vec t p1 hnh hnf hnc hn =>
      rw [parse1_eq_other p vec t p1 hn (fun h2 => hnh h2) (fun h2 => hnf h2)
            (fun h2 => hnc h2)]
      exact ⟨[], Or.inl (by simp)⟩

/-!
Claim theorems.
-/

theorem wfP_byte (p : Parser) (hw : p.wfP) : p.byte = p.stream.head? := by
  rcases hb : p.byte with _ | b
  · rw [stream_nil_of_none p hw hb]
    rfl
  · rw [stream_next p b hb]
    rfl

theorem parse_ne_eof (p : Parser) : parse p ≠ .error .EOF := by
  intro hcontra
  rcases hr : parse1 p [] with ⟨vec, e⟩
  by_cases he : e.is_eof_error
  · simp [parse, hr, he] at hcontra
  · simp [parse, hr, he] at hcontra
    rw [hcontra] at he
    exact he rfl

/-- C1: contrary to the claim, input ending immediately after the
`flavor` keyword with no string literal parses successfully (to an
empty list): the end-of-input error raised inside parse_str propagates
to parse, which converts every EOF error into success. -/
theorem claim1_counterexample : parseBytes (ascii "flavor") = .ok [] := by
  rw [← parseBytesF_eq]
  rfl

/-- C1 (amended): parse never reports an end-of-input error — parse1
always terminates with an error value and parse converts the EOF case
into success with the entries accumulated at that moment.  Input
ending at a statement boundary succeeds with its entries; input ending
right after `flavor` also succeeds, with no entry; the only
end-of-input failure is inside an unterminated string literal, which
surfaces as the Terminate error, not as EOF. -/
theorem claim1_eof_success :
    (∀ s : List Nat, parseBytes s ≠ .error .EOF) ∧
    parseBytes (ascii "flavor " ++ lit "repo") =
      .ok [{ repo := ascii "repo", branch := ascii "master" }] ∧
    parseBytes (ascii "flavor") = .ok [] ∧
    parseBytes (ascii "flavor " ++ [39] ++ ascii "repo") =
      .error .Terminate := by
  refine ⟨fun s => parse_ne_eof (Parser.new s), ?_, ?_, ?_⟩
  · rw [← parseBytesF_eq]; rfl
  · rw [← parseBytesF_eq]; rfl
  · rw [← parseBytesF_eq]; rfl

/-- C2: contrary to the claim, a successful parse can drop an entry:
the input holds the complete flavor statement `flavor (quote)a(quote)`
followed by a dangling `, branch`, the entry is popped for the
attribute clause, end of input arrives before the colon, and parse
returns Ok with the empty list. -/
theorem claim2_counterexample :
    parseBytes (ascii "flavor " ++ lit "a" ++ ascii ", branch") = .ok [] := by
  rw [← parseBytesF_eq]
  rfl

/-- C2 (amended): entries are appended in textual order and never
reordered: against any accumulated list, parse1 either extends the
repo sequence on the right, or — only when the input ends inside an
attribute clause after `branch` — first drops the most recently
appended entry and then extends; two flavor statements parse to their
two entries in textual order. -/
theorem claim2_order :
    (∀ (p : Parser) (vec : List Flavor), ∃ tl : List (List Nat),
      ((parse1 p vec).1).map Flavor.repo = vec.map Flavor.repo ++ tl ∨
      ((parse1 p vec).1).map Flavor.repo =
        (vec.dropLast).map Flavor.repo ++ tl) ∧
    parseBytes (ascii "flavor " ++ lit "a" ++ [10] ++ ascii "flavor " ++
        lit "b") =
      .ok [{ repo := ascii "a", branch := ascii "master" },
           { repo := ascii "b", branch := ascii "master" }] := by
  refine ⟨parse1_repo_order, ?_⟩
  rw [← parseBytesF_eq]
  rfl

/-- C3: contrary to the claim, a comment is not always fully ignored:
when the `#` is immediately followed by the newline, next_token has
already consumed that newline into the byte cache, skip_to_next_line
searches only the buffer and therefore skips through the newline of
the following line, so `#` newline `flavor (quote)x(quote)` parses to
the empty list while the same input without the comment line parses to
one entry. -/
theorem claim3_counterexample :
    parseBytes ([35, 10] ++ ascii "flavor " ++ lit "x") = .ok [] ∧
    parseBytes (ascii "flavor " ++ lit "x") =
      .ok [{ repo := ascii "x", branch := ascii "master" }] := by
  constructor
  · rw [← parseBytesF_eq]; rfl
  · rw [← parseBytesF_eq]; rfl

/-- C3 (amended): a comment whose `#` is followed by at least one
non-newline byte before its newline is ignored as far as parsing
outcomes are concerned — parsing the whole input equals parsing the
text after the comment line.  skip_to_next_line moves the offset just
past the first newline remaining in its buffer but caches the newline
byte itself as the current byte (shown on the repository's own
skip_to_next_line test input, where the offset lands past the newline
while the cached byte is the newline), so subsequent offsets run one
ahead of true byte positions. -/
theorem claim3_comment :
    (∀ body rest : List Nat, body ≠ [] → (∀ b, b ∈ body → b ≠ 10) →
      parseBytes (35 :: (body ++ 10 :: rest)) = parseBytes rest) ∧
    ((Parser.new (ascii "aaa" ++ [10] ++ ascii "bbb")).skip_to_next_line.offset
        = 4 ∧
     (Parser.new (ascii "aaa" ++ [10] ++ ascii "bbb")).skip_to_next_line.byte
        = some 10) := by
  exact ⟨parseBytes_comment, by decide, by decide⟩

/-- C3 witness: the amended comment theorem applied to the comment
body " note" and the remainder flavor statement. -/
theorem claim3_witness :
    parseBytes (35 :: (ascii " note" ++ 10 :: (ascii "flavor " ++ lit "a/b")))
      = parseBytes (ascii "flavor " ++ lit "a/b") :=
  claim3_comment.1 (ascii " note") (ascii "flavor " ++ lit "a/b")
    (by decide) (by decide)

/-- C4: contrary to the claim, a Comma at statement position with no
preceding entry does not always produce the unexpected-token error
got Comma, want Flavor: parse_attrs parses the `branch` keyword before
popping, so when input ends right after the comma the EOF propagates
and parse succeeds with no entries. -/
theorem claim4_counterexample : parseBytes [44] = .ok [] := by
  rw [← parseBytesF_eq]
  rfl

/-- C4 (amended): a Comma at statement position with no previously
appended entry yields the unexpected-token error got Comma, want
Flavor exactly when the comma is followed by the `branch` keyword — as
in the spec example — because parse_attrs checks the keyword first:
any other following token is reported against want Branch instead, and
end of input right after the comma surfaces as success. -/
theorem claim4_comma :
    parseBytes (ascii ", branch") =
      .error (.Unexpected Token.Comma Token.Flavor) ∧
    parseBytes [44, 44] = .error (.Unexpected Token.Comma Token.Branch) ∧
    parseBytes [44] = .ok [] ∧
    (∀ p p1 : Parser, parse_branch p = .ok p1 →
      parse_attrs p [] = ([], .error (.Unexpected Token.Comma Token.Flavor))) := by
  refine ⟨?_, ?_, ?_, ?_⟩
  · rw [← parseBytesF_eq]; rfl
  · rw [← parseBytesF_eq]; rfl
  · rw [← parseBytesF_eq]; rfl
  · intro p p1 hb
    unfold parse_attrs
    simp only [hb]
    rfl

/-- C4 witness: the pop-of-nothing branch of parse_attrs on an empty
entry list, with the `branch` keyword parsed from concrete input. -/
theorem claim4_witness :
    parse_attrs (Parser.new (ascii "branch")) [] =
      ([], .error (.Unexpected Token.Comma Token.Flavor)) := by
  refine claim4_comma.2.2.2 (Parser.new (ascii "branch"))
    { buffer := [], offset := 6, byte := none } ?_
  rw [← parse_branchF_eq 7 (Parser.new (ascii "branch")) (by decide)]
  rfl

/-- C5: contrary to the claim, not every deviation inside an attribute
clause names the found and required tokens: a present token other than
a string literal at the literal position raises the bare TypeMismatch
error, which names neither token. -/
theorem claim5_counterexample :
    parseBytes (ascii "flavor " ++ lit "a" ++ ascii ", branch: branch") =
      .error .TypeMismatch := by
  rw [← parseBytesF_eq]
  rfl

/-- C5 (amended): a deviating token at the `branch` keyword position
or at the Colon position raises the unexpected-token error naming the
token found and the token required; a deviating token at the string
literal position raises TypeMismatch, which names nothing; end of
input at the literal position surfaces as overall success with the
pending entry dropped. -/
theorem claim5_attr_errors :
    parseBytes (ascii "flavor " ++ lit "a" ++ ascii ", x: " ++ lit "v") =
      .error (.Unexpected (Token.Ident (ascii "x")) Token.Branch) ∧
    parseBytes (ascii "flavor " ++ lit "a" ++ ascii ", branch " ++ lit "v") =
      .error (.Unexpected (Token.Str (ascii "v")) Token.Colon) ∧
    parseBytes (ascii "flavor " ++ lit "a" ++ ascii ", branch: branch") =
      .error .TypeMismatch ∧
    parseBytes (ascii "flavor " ++ lit "a" ++ ascii ", branch:") = .ok [] ∧
    (∀ (p : Parser) (t : Token) (q : Parser), next_token p = .ok (t, q) →
      t ≠ Token.Branch →
      parse_branch p = .error (.Unexpected t Token.Branch)) ∧
    (∀ (p : Parser) (t : Token) (q : Parser), next_token p = .ok (t, q) →
      t ≠ Token.Colon →
      parse_colon p = .error (.Unexpected t Token.Colon)) ∧
    (∀ (p : Parser) (t : Token) (q : Parser), next_token p = .ok (t, q) →
      (∀ s2, t ≠ Token.Str s2) → parse_str p = .error .TypeMismatch) := by
  refine ⟨?_, ?_, ?_, ?_, ?_, ?_, ?_⟩
  · rw [← parseBytesF_eq]; rfl
  · rw [← parseBytesF_eq]; rfl
  · rw [← parseBytesF_eq]; rfl
  · rw [← parseBytesF_eq]; rfl
  · intro p t q hn ht
    unfold parse_branch
    rw [hn]
    cases t <;> first | rfl | exact absurd rfl ht
  · intro p t q hn ht
    unfold parse_colon
    rw [hn]
    cases t <;> first | rfl | exact absurd rfl ht
  · intro p t q hn ht
    unfold parse_str
    rw [hn]
    cases t <;> first | rfl | exact absurd rfl (ht _)

/-- C5 witness: the deviation lemma for the branch position applied to
a comma read from concrete input. -/
theorem claim5_witness :
    parse_branch (Parser.new [44]) =
      .error (.Unexpected Token.Comma Token.Branch) := by
  refine claim5_attr_errors.2.2.2.2.1 (Parser.new [44]) Token.Comma
    { buffer := [], offset := 1, byte := none } ?_ (by simp)
  rw [← next_tokenF_eq 2 (Parser.new [44]) (by decide)]
  rfl

/-- C6: a successfully parsed attribute clause overwrites (not merges)
the branch field of the most recently appended entry: parse_attrs pops
the last entry, replaces its branch with the parsed literal and pushes
it back, leaving the earlier entries untouched; concretely,
`flavor (quote)a/b(quote), branch: (quote)v2(quote)` parses to exactly
one entry with repo a/b and branch v2. -/
theorem claim6_branch_overwrite :
    (∀ (p p1 p2 p3 : Parser) (s : List Nat) (init : List Flavor)
        (f : Flavor), parse_branch p = .ok p1 → parse_colon p1 = .ok p2 →
      parse_str p2 = .ok (s, p3) →
      parse_attrs p (init ++ [f]) =
        (init ++ [{ f with branch := s }], .ok p3)) ∧
    parseBytes (ascii "flavor " ++ lit "a/b" ++ ascii ", branch: " ++
        lit "v2") =
      .ok [{ repo := ascii "a/b", branch := ascii "v2" }] := by
  constructor
  · intro p p1 p2 p3 s init f hb hc hs
    unfold parse_attrs
    simp only [hb, List.getLast?_concat, hc, hs, List.dropLast_concat]
  · rw [← parseBytesF_eq]; rfl

/-- C6 witness: the overwrite lemma applied to the concrete clause
`branch: (quote)v2(quote)` against the singleton entry list holding
repo a/b with the default branch. -/
theorem claim6_witness :
    parse_attrs (Parser.new (ascii "branch: " ++ lit "v2"))
        [{ repo := ascii "a/b", branch := ascii "master" }] =
      ([{ repo := ascii "a/b", branch := ascii "v2" }],
        .ok { buffer := [], offset := 12, byte := none }) := by
  have h1 : parse_branch (Parser.new (ascii "branch: " ++ lit "v2")) =
      .ok { buffer := [(7, 32), (8, 39), (9, 118), (10, 50), (11, 39)],
            offset := 6, byte := some 58 } := by
    rw [← parse_branchF_eq 13 _ (by decide)]
    rfl
  have h2 : parse_colon
      { buffer := [(7, 32), (8, 39), (9, 118), (10, 50), (11, 39)],
        offset := 6, byte := some 58 } =
      .ok { buffer := [(8, 39), (9, 118), (10, 50), (11, 39)],
            offset := 7, byte := some 32 } := by
    rw [← parse_colonF_eq 13 _ (by decide)]
    rfl
  have h3 : parse_str
      { buffer := [(8, 39), (9, 118), (10, 50), (11, 39)],
        offset := 7, byte := some 32 } =
      .ok (ascii "v2", { buffer := [], offset := 12, byte := none }) := by
    rw [← parse_strF_eq 13 _ (by decide)]
    rfl
  exact claim6_branch_overwrite.1 _ _ _ _ (ascii "v2") []
    { repo := ascii "a/b", branch := ascii "master" } h1 h2 h3

/-- C7: a flavor keyword followed by a string literal appends an entry
with that repo and the default branch master, and parsing continues
after the literal; a flavor keyword followed by any other present
token makes the whole parse fail with the type-mismatch error. -/
theorem claim7_flavor :
    (∀ (p p1 : Parser) (s : List Nat) (p2 : Parser) (vec : List Flavor),
      next_token p = .ok (Token.Flavor, p1) → parse_str p1 = .ok (s, p2) →
      parse1 p vec =
        parse1 p2 (vec ++ [{ repo := s, branch := ascii "master" }])) ∧
    (∀ (p p1 : Parser) (t : Token) (p2 : Parser) (vec : List Flavor),
      next_token p = .ok (Token.Flavor, p1) → next_token p1 = .ok (t, p2) →
      (∀ s2, t ≠ Token.Str s2) → parse1 p vec = (vec, .TypeMismatch)) ∧
    parseBytes (ascii "flavor " ++ lit "repo") =
      .ok [{ repo := ascii "repo", branch := ascii "master" }] ∧
    parseBytes (ascii "flavor flavor") = .error .TypeMismatch := by
  refine ⟨?_, ?_, ?_, ?_⟩
  · intro p p1 s p2 vec hn hs
    exact parse1_eq_flavor_ok p vec p1 s p2 hn hs
  · intro p p1 t p2 vec hn hn1 hts
    have hps : parse_str p1 = .error .TypeMismatch := by
      unfold parse_str
      rw [hn1]
      cases t <;> first | rfl | exact absurd rfl (hts _)
    exact parse1_eq_flavor_err p vec p1 .TypeMismatch hn hps
  · rw [← parseBytesF_eq]; rfl
  · rw [← parseBytesF_eq]; rfl

/-- C7 witness: the append lemma applied to the concrete statement
`flavor (quote)r(quote)` against the empty accumulated list. -/
theorem claim7_witness :
    parse1 (Parser.new (ascii "flavor " ++ lit "r")) [] =
      parse1 { buffer := [], offset := 10, byte := none }
        [{ repo := ascii "r", branch := ascii "master" }] := by
  have h1 : next_token (Parser.new (ascii "flavor " ++ lit "r")) =
      .ok (Token.Flavor,
        { buffer := [(7, 39), (8, 114), (9, 39)], offset := 6,
          byte := some 32 }) := by
    rw [← next_tokenF_eq 11 _ (by decide)]
    rfl
  have h2 : parse_str
      { buffer := [(7, 39), (8, 114), (9, 39)], offset := 6,
        byte := some 32 } =
      .ok (ascii "r", { buffer := [], offset := 10, byte := none }) := by
    rw [← parse_strF_eq 11 _ (by decide)]
    rfl
  exact claim7_flavor.1 _ _ (ascii "r") _ [] h1 h2

/-- C8: read_string consumes the raw byte span up to the closing
quote: from a well-formed state whose unconsumed bytes are a
quote-free valid span, the closing quote and a remainder, it returns
the span verbatim as the Str token and leaves the cursor right after
the closing quote; when no closing quote remains it fails with the
unterminated-literal error, as does a whole parse of an unterminated
literal. -/
theorem claim8_read_string :
    (∀ (p : Parser) (content rest : List Nat), p.wfP →
      p.stream = content ++ 39 :: rest → (∀ b, b ∈ content → b ≠ 39) →
      validUtf8 content = true →
      ∃ q, read_string p = .ok (Token.Str content, q) ∧ q.stream = rest) ∧
    (∀ p : Parser, p.wfP → (∀ b, b ∈ p.stream → b ≠ 39) →
      read_string p = .error .Terminate) ∧
    parseBytes (ascii "flavor " ++ [39] ++ ascii "abc") =
      .error .Terminate := by
  refine ⟨?_, ?_, ?_⟩
  · intro p content rest hw hstream hnq hval
    obtain ⟨h1, h2, h3⟩ := read_string_loop_spec p [] hw
    have hpred : ∀ b, b ∈ content → (fun x => !(x == 39)) b = true := by
      intro b hb
      simp [hnq b hb]
    have htake : p.stream.takeWhile (fun x => !(x == 39)) = content := by
      rw [hstream, takeWhile_append_of_all _ content _ hpred,
        List.takeWhile_cons, if_neg (by simp)]
      simp
    have hdrop : p.stream.dropWhile (fun x => !(x == 39)) = 39 :: rest := by
      rw [hstream, dropWhile_append_of_all _ content _ hpred,
        List.dropWhile_cons, if_neg (by simp)]
    have hvec : (read_string_loop p []).2 = content := by
      rw [h1, htake]
      simp
    have hq39 : (read_string_loop p []).1.byte = some 39 := by
      rw [wfP_byte _ h3, h2, hdrop]
      rfl
    have hu : from_utf8 (read_string_loop p []).2 = .ok content := by
      rw [hvec, from_utf8, if_pos hval]
    refine ⟨(read_string_loop p []).1.next, ?_, ?_⟩
    · simp [read_string, hq39, hu]
    · have hsn := stream_next (read_string_loop p []).1 39 hq39
      rw [h2, hdrop] at hsn
      exact ((List.cons.injEq _ _ _ _).mp hsn).2.symm
  · intro p hw hnq
    obtain ⟨h1, h2, h3⟩ := read_string_loop_spec p [] hw
    have hdrop : p.stream.dropWhile (fun x => !(x == 39)) = [] := by
      apply List.dropWhile_eq_nil_iff.mpr
      intro b hb
      simp [hnq b hb]
    have hbn : (read_string_loop p []).1.byte = none := by
      rw [wfP_byte _ h3, h2, hdrop]
      rfl
    simp [read_string, hbn]
  · rw [← parseBytesF_eq]; rfl

/-- C8 witness: the span lemma applied to a fresh parser over the
bytes of `ab` followed by a closing quote, and the termination lemma
applied to a fresh parser over quote-free bytes. -/
theorem claim8_witness :
    (∃ q, read_string (Parser.new (ascii "ab" ++ [39])) =
      .ok (Token.Str (ascii "ab"), q) ∧ q.stream = []) ∧
    read_string (Parser.new (ascii "ab")) = .error .Terminate := by
  constructor
  · refine claim8_read_string.1 (Parser.new (ascii "ab" ++ [39]))
      (ascii "ab") [] (wfP_new _) ?_ (by decide) ?_
    · rw [stream_new]
    · rw [← validUtf8Fuel_eq 3 _ (by decide)]
      rfl
  · refine claim8_read_string.2.1 (Parser.new (ascii "ab")) (wfP_new _) ?_
    rw [stream_new]
    decide

/-- C9: install mode (synchronizer modelled from the spec, its
implementation being absent from the sources): an entry whose
sanitized directory already exists under the root is skipped with no
error and no backend invocation; installing the entry vspec into an
empty root creates the directory vspec with one backend call, and a
second run over the resulting root is a no-op with zero backend
calls. -/
theorem claim9_install_skip :
    (∀ (bk : Flavor → Nat) (st : SyncState) (f : Flavor),
      st.dirs.contains (sanitize f.repo) = true →
      install1 bk st f = (st, none)) ∧
    install (fun _ => 0)
        [{ repo := ascii "vspec", branch := ascii "master" }]
        { dirs := [], calls := [] } =
      ({ dirs := [ascii "vspec"],
         calls := [{ repo := ascii "vspec", branch := ascii "master" }] },
        none) ∧
    install (fun _ => 0)
        [{ repo := ascii "vspec", branch := ascii "master" }]
        { dirs := [ascii "vspec"], calls := [] } =
      ({ dirs := [ascii "vspec"], calls := [] }, none) := by
  refine ⟨?_, by rfl, by rfl⟩
  intro bk st f h
  unfold install1
  rw [if_pos h]

/-- C9 witness: the skip lemma applied to the vspec entry against a
root that already holds the vspec directory. -/
theorem claim9_witness :
    install1 (fun _ => 0) { dirs := [ascii "vspec"], calls := [] }
        { repo := ascii "vspec", branch := ascii "master" } =
      ({ dirs := [ascii "vspec"], calls := [] }, none) :=
  claim9_install_skip.1 (fun _ => 0) { dirs := [ascii "vspec"], calls := [] }
    { repo := ascii "vspec", branch := ascii "master" } (by decide)

/-- C10: on valid UTF-8 input the parser never reports the UTF-8
decode error: parse over any valid byte list cannot return the Utf8
error, and next_token from any well-formed state whose unconsumed
bytes are valid UTF-8 cannot return it either — identifier runs are
ASCII and string-literal spans are cut at the ASCII quote byte, hence
themselves valid. -/
theorem claim10_no_utf8 :
    (∀ s : List Nat, validUtf8 s = true → parseBytes s ≠ .error .Utf8) ∧
    (∀ p : Parser, p.wfP → validUtf8 p.stream = true →
      next_token p ≠ .error .Utf8) := by
  constructor
  · intro s hv
    unfold parseBytes
    exact parse_no_utf8 (Parser.new s) (wfP_new s)
      (by rw [stream_new]; exact hv)
  · intro p hw hv
    exact (next_token_inv p hw hv).1

/-- C10 witness: the parse conjunct applied to the valid input
consisting of the keyword flavor alone, and the next_token conjunct
applied to a fresh parser over a two-byte UTF-8 character. -/
theorem claim10_witness :
    parseBytes (ascii "flavor") ≠ .error .Utf8 ∧
    next_token (Parser.new [195, 169]) ≠ .error .Utf8 := by
  constructor
  · refine claim10_no_utf8.1 (ascii "flavor") ?_
    rw [← validUtf8Fuel_eq 7 _ (by decide)]
    rfl
  · refine claim10_no_utf8.2 (Parser.new [195, 169]) (wfP_new _) ?_
    rw [stream_new, ← validUtf8Fuel_eq 3 _ (by decide)]
    rfl

end VimFlavor
